import Mathlib

/-!
Verification of the `bip-tools` extended-public-key library.

This file gives a shallow embedding, in Lean 4, of the Rust sources
`src/lib.rs` (the `Xpub` type: Base58Check wire codec, fingerprint,
non-hardened BIP32 child derivation, batch address drivers) and
`src/utils.rs` (the `CashAddress` renderer: legacy Base58Check and
CashAddr encodings), together with proofs of the specification's claims
about them.

Conventions of the embedding:
* A Rust byte slice `&[u8]` is a `List Nat` whose entries are `< 256`
  (the predicate `ByteList` below); machine-integer arithmetic is done
  on `Nat` with an explicit `% 2 ^ w` wherever Rust overflow semantics
  matter.
* The cryptographic primitives the crate links against (`sha2`,
  `ripemd`, `hmac`, `secp256k1`, `base58`/`bs58`) are implemented
  concretely below, following their public standards (FIPS 180-4,
  RIPEMD-160, RFC 2104, SEC 1/secp256k1, the Base58 alphabet), so that
  every definition is executable and every witness evaluates on real
  data.  The embedding is validated against the repository's own test
  vectors (`tests/bip32_vectors.rs`).
* Fallible Rust functions returning `Result` become `Except`.
-/

/-! ## Byte-level utilities -/

/-- Every entry of the list is a byte value, as in a Rust `&[u8]`. -/
def ByteList (l : List Nat) : Prop := ∀ x ∈ l, x < 256

instance : DecidablePred ByteList := fun l =>
  inferInstanceAs (Decidable (∀ x ∈ l, x < 256))

/-- Big-endian bytes of `n`, exactly `w` bytes wide (high bits beyond
`8*w` are dropped, as a Rust `to_be_bytes` on a `w`-byte integer would). -/
def beBytesFixed : Nat → Nat → List Nat
  | 0, _ => []
  | w + 1, n => beBytesFixed w (n / 256) ++ [n % 256]

/-- Interpret a big-endian byte list as a natural number
(`u32::from_be_bytes` and friends). -/
def beToNat (l : List Nat) : Nat := l.foldl (fun a b => a * 256 + b) 0

theorem beBytesFixed_length (w n : Nat) : (beBytesFixed w n).length = w := by
  induction w generalizing n with
  | zero => rfl
  | succ w ih => simp [beBytesFixed, ih]

theorem beBytesFixed_byteList (w n : Nat) : ByteList (beBytesFixed w n) := by
  induction w generalizing n with
  | zero => intro x hx; simp [beBytesFixed] at hx
  | succ w ih =>
    intro x hx
    simp only [beBytesFixed, List.mem_append, List.mem_singleton] at hx
    rcases hx with h | h
    · exact ih _ x h
    · subst h; exact Nat.mod_lt _ (by norm_num)

theorem beToNat_foldl (a : Nat) (l : List Nat) :
    List.foldl (fun a b => a * 256 + b) a l = a * 256 ^ l.length + beToNat l := by
  induction l generalizing a with
  | nil => simp [beToNat]
  | cons b t ih =>
    show List.foldl _ (a * 256 + b) t = _
    rw [ih (a * 256 + b)]
    have hb : beToNat (b :: t) = b * 256 ^ t.length + beToNat t := by
      show List.foldl _ (0 * 256 + b) t = _
      simpa using ih (0 * 256 + b)
    rw [hb]
    simp [List.length_cons, Nat.pow_succ]
    ring

theorem beToNat_cons (b : Nat) (t : List Nat) :
    beToNat (b :: t) = b * 256 ^ t.length + beToNat t := by
  show List.foldl _ (0 * 256 + b) t = _
  simpa using beToNat_foldl (0 * 256 + b) t

theorem beToNat_append (l₁ l₂ : List Nat) :
    beToNat (l₁ ++ l₂) = beToNat l₁ * 256 ^ l₂.length + beToNat l₂ := by
  unfold beToNat
  rw [List.foldl_append]
  exact beToNat_foldl _ l₂

theorem beToNat_lt (l : List Nat) (h : ByteList l) :
    beToNat l < 256 ^ l.length := by
  induction l with
  | nil => simp [beToNat]
  | cons b t ih =>
    rw [beToNat_cons]
    have hb : b < 256 := h b (by simp)
    have ht : beToNat t < 256 ^ t.length := ih (fun x hx => h x (by simp [hx]))
    calc b * 256 ^ t.length + beToNat t
        < b * 256 ^ t.length + 256 ^ t.length := by omega
      _ = (b + 1) * 256 ^ t.length := by ring
      _ ≤ 256 * 256 ^ t.length := by
          exact Nat.mul_le_mul_right _ (by omega)
      _ = 256 ^ (t.length + 1) := by ring
      _ = 256 ^ (b :: t).length := by simp

theorem beToNat_beBytesFixed (w n : Nat) (h : n < 256 ^ w) :
    beToNat (beBytesFixed w n) = n := by
  induction w generalizing n with
  | zero => interval_cases n; simp [beBytesFixed, beToNat]
  | succ w ih =>
    show beToNat (beBytesFixed w (n / 256) ++ [n % 256]) = n
    rw [beToNat_append, ih (n / 256) (by
      have : 256 ^ (w + 1) = 256 ^ w * 256 := by ring
      rw [this] at h
      exact Nat.div_lt_of_lt_mul (by omega))]
    show n / 256 * 256 ^ 1 + beToNat [n % 256] = n
    have : beToNat [n % 256] = n % 256 := by simp [beToNat]
    rw [this]
    omega

theorem beBytesFixed_beToNat (l : List Nat) (h : ByteList l) :
    beBytesFixed l.length (beToNat l) = l := by
  induction l using List.reverseRecOn with
  | nil => simp [beBytesFixed]
  | append_singleton t b ih =>
    have hb : b < 256 := h b (by simp)
    have ht : ByteList t := fun x hx => h x (by simp [hx])
    rw [beToNat_append]
    have hlen : (t ++ [b]).length = t.length + 1 := by simp
    rw [hlen]
    show beBytesFixed t.length ((beToNat t * 256 ^ [b].length + beToNat [b]) / 256)
        ++ [(beToNat t * 256 ^ [b].length + beToNat [b]) % 256] = t ++ [b]
    have hb1 : beToNat [b] = b := by simp [beToNat]
    have h2 : (beToNat t * 256 ^ [b].length + beToNat [b]) / 256 = beToNat t := by
      rw [hb1]; show (beToNat t * 256 ^ 1 + b) / 256 = beToNat t
      rw [pow_one]
      omega
    have h3 : (beToNat t * 256 ^ [b].length + beToNat [b]) % 256 = b := by
      rw [hb1]; show (beToNat t * 256 ^ 1 + b) % 256 = b
      rw [pow_one]
      omega
    rw [h2, h3, ih ht]

/-! ## SHA-256 (FIPS 180-4), the `sha2::Sha256` digest used by `lib.rs` -/

/-- Right rotation on 32-bit words. -/
def rotr32 (n x : Nat) : Nat := ((x >>> n) ||| (x <<< (32 - n))) % 2 ^ 32

/-- The round constants K of SHA-256. -/
def sha256K : List Nat :=
  [0x428A2F98, 0x71374491, 0xB5C0FBCF, 0xE9B5DBA5, 0x3956C25B, 0x59F111F1,
   0x923F82A4, 0xAB1C5ED5, 0xD807AA98, 0x12835B01, 0x243185BE, 0x550C7DC3,
   0x72BE5D74, 0x80DEB1FE, 0x9BDC06A7, 0xC19BF174, 0xE49B69C1, 0xEFBE4786,
   0x0FC19DC6, 0x240CA1CC, 0x2DE92C6F, 0x4A7484AA, 0x5CB0A9DC, 0x76F988DA,
   0x983E5152, 0xA831C66D, 0xB00327C8, 0xBF597FC7, 0xC6E00BF3, 0xD5A79147,
   0x06CA6351, 0x14292967, 0x27B70A85, 0x2E1B2138, 0x4D2C6DFC, 0x53380D13,
   0x650A7354, 0x766A0ABB, 0x81C2C92E, 0x92722C85, 0xA2BFE8A1, 0xA81A664B,
   0xC24B8B70, 0xC76C51A3, 0xD192E819, 0xD6990624, 0xF40E3585, 0x106AA070,
   0x19A4C116, 0x1E376C08, 0x2748774C, 0x34B0BCB5, 0x391C0CB3, 0x4ED8AA4A,
   0x5B9CCA4F, 0x682E6FF3, 0x748F82EE, 0x78A5636F, 0x84C87814, 0x8CC70208,
   0x90BEFFFA, 0xA4506CEB, 0xBEF9A3F7, 0xC67178F2]

/-- SHA-2 padding: append `0x80`, zero bytes, and the big-endian bit length
(`lenw` bytes of it), reaching a multiple of the block size `bs`. -/
def shaPad (bs lenw : Nat) (msg : List Nat) : List Nat :=
  let zeros := (bs - (msg.length + 1 + lenw) % bs) % bs
  msg ++ [0x80] ++ List.replicate zeros 0 ++ beBytesFixed lenw (msg.length * 8)

/-- Split the padded message into blocks of `bs` bytes. -/
def shaBlocks (bs : Nat) (padded : List Nat) : List (List Nat) :=
  (List.range (padded.length / bs)).map fun i => ((padded.drop (bs * i)).take bs)

/-- Extend the 16 message words of a block to the full schedule, one word per
fuel step; words are kept most-recent-first. -/
def sha256ExtendRev : Nat → List Nat → List Nat
  | 0, ws => ws
  | f + 1, ws =>
    let w2 := ws.getD 1 0
    let w7 := ws.getD 6 0
    let w15 := ws.getD 14 0
    let w16 := ws.getD 15 0
    let s0 := (rotr32 7 w15) ^^^ (rotr32 18 w15) ^^^ (w15 >>> 3)
    let s1 := (rotr32 17 w2) ^^^ (rotr32 19 w2) ^^^ (w2 >>> 10)
    sha256ExtendRev f (((w16 + s0 + w7 + s1) % 2 ^ 32) :: ws)

/-- One state of the SHA-256 compression function. -/
structure Sha256State where
  a : Nat
  b : Nat
  c : Nat
  d : Nat
  e : Nat
  f : Nat
  g : Nat
  h : Nat
deriving Repr, DecidableEq

/-- One round of the SHA-256 compression function. -/
def sha256Round (st : Sha256State) (kw : Nat × Nat) : Sha256State :=
  let S1 := (rotr32 6 st.e) ^^^ (rotr32 11 st.e) ^^^ (rotr32 25 st.e)
  let ch := (st.e &&& st.f) ^^^ ((st.e ^^^ (2 ^ 32 - 1)) &&& st.g)
  let temp1 := (st.h + S1 + ch + kw.1 + kw.2) % 2 ^ 32
  let S0 := (rotr32 2 st.a) ^^^ (rotr32 13 st.a) ^^^ (rotr32 22 st.a)
  let maj := (st.a &&& st.b) ^^^ (st.a &&& st.c) ^^^ (st.b &&& st.c)
  let temp2 := (S0 + maj) % 2 ^ 32
  { a := (temp1 + temp2) % 2 ^ 32, b := st.a, c := st.b, d := st.c,
    e := (st.d + temp1) % 2 ^ 32, f := st.e, g := st.f, h := st.g }

/-- Process one 64-byte block. -/
def sha256Block (st : Sha256State) (block : List Nat) : Sha256State :=
  let w0 := (List.range 16).map fun j => beToNat ((block.drop (4 * j)).take 4)
  let ws := (sha256ExtendRev 48 w0.reverse).reverse
  let r := (sha256K.zip ws).foldl sha256Round st
  { a := (st.a + r.a) % 2 ^ 32, b := (st.b + r.b) % 2 ^ 32,
    c := (st.c + r.c) % 2 ^ 32, d := (st.d + r.d) % 2 ^ 32,
    e := (st.e + r.e) % 2 ^ 32, f := (st.f + r.f) % 2 ^ 32,
    g := (st.g + r.g) % 2 ^ 32, h := (st.h + r.h) % 2 ^ 32 }

/-- The initial SHA-256 state. -/
def sha256Init : Sha256State :=
  { a := 0x6A09E667, b := 0xBB67AE85, c := 0x3C6EF372, d := 0xA54FF53A,
    e := 0x510E527F, f := 0x9B05688C, g := 0x1F83D9AB, h := 0x5BE0CD19 }

/-- SHA-256 digest of a byte list: 32 bytes. -/
def sha256 (msg : List Nat) : List Nat :=
  let st := (shaBlocks 64 (shaPad 64 8 msg)).foldl sha256Block sha256Init
  beBytesFixed 4 st.a ++ beBytesFixed 4 st.b ++ beBytesFixed 4 st.c ++
  beBytesFixed 4 st.d ++ beBytesFixed 4 st.e ++ beBytesFixed 4 st.f ++
  beBytesFixed 4 st.g ++ beBytesFixed 4 st.h

theorem sha256_length (msg : List Nat) : (sha256 msg).length = 32 := by
  simp [sha256, beBytesFixed_length]

theorem sha256_byteList (msg : List Nat) : ByteList (sha256 msg) := by
  intro x hx
  simp only [sha256, List.mem_append] at hx
  rcases hx with ((((((h | h) | h) | h) | h) | h) | h) | h <;>
    exact beBytesFixed_byteList 4 _ x h

/-! ## SHA-512 (FIPS 180-4) and HMAC-SHA512 (RFC 2104), used by derivation -/

/-- Right rotation on 64-bit words. -/
def rotr64 (n x : Nat) : Nat := ((x >>> n) ||| (x <<< (64 - n))) % 2 ^ 64

/-- The round constants K of SHA-512. -/
def sha512K : List Nat :=
  [0x428A2F98D728AE22, 0x7137449123EF65CD, 0xB5C0FBCFEC4D3B2F, 0xE9B5DBA58189DBBC,
   0x3956C25BF348B538, 0x59F111F1B605D019, 0x923F82A4AF194F9B, 0xAB1C5ED5DA6D8118,
   0xD807AA98A3030242, 0x12835B0145706FBE, 0x243185BE4EE4B28C, 0x550C7DC3D5FFB4E2,
   0x72BE5D74F27B896F, 0x80DEB1FE3B1696B1, 0x9BDC06A725C71235, 0xC19BF174CF692694,
   0xE49B69C19EF14AD2, 0xEFBE4786384F25E3, 0x0FC19DC68B8CD5B5, 0x240CA1CC77AC9C65,
   0x2DE92C6F592B0275, 0x4A7484AA6EA6E483, 0x5CB0A9DCBD41FBD4, 0x76F988DA831153B5,
   0x983E5152EE66DFAB, 0xA831C66D2DB43210, 0xB00327C898FB213F, 0xBF597FC7BEEF0EE4,
   0xC6E00BF33DA88FC2, 0xD5A79147930AA725, 0x06CA6351E003826F, 0x142929670A0E6E70,
   0x27B70A8546D22FFC, 0x2E1B21385C26C926, 0x4D2C6DFC5AC42AED, 0x53380D139D95B3DF,
   0x650A73548BAF63DE, 0x766A0ABB3C77B2A8, 0x81C2C92E47EDAEE6, 0x92722C851482353B,
   0xA2BFE8A14CF10364, 0xA81A664BBC423001, 0xC24B8B70D0F89791, 0xC76C51A30654BE30,
   0xD192E819D6EF5218, 0xD69906245565A910, 0xF40E35855771202A, 0x106AA07032BBD1B8,
   0x19A4C116B8D2D0C8, 0x1E376C085141AB53, 0x2748774CDF8EEB99, 0x34B0BCB5E19B48A8,
   0x391C0CB3C5C95A63, 0x4ED8AA4AE3418ACB, 0x5B9CCA4F7763E373, 0x682E6FF3D6B2B8A3,
   0x748F82EE5DEFB2FC, 0x78A5636F43172F60, 0x84C87814A1F0AB72, 0x8CC702081A6439EC,
   0x90BEFFFA23631E28, 0xA4506CEBDE82BDE9, 0xBEF9A3F7B2C67915, 0xC67178F2E372532B,
   0xCA273ECEEA26619C, 0xD186B8C721C0C207, 0xEADA7DD6CDE0EB1E, 0xF57D4F7FEE6ED178,
   0x06F067AA72176FBA, 0x0A637DC5A2C898A6, 0x113F9804BEF90DAE, 0x1B710B35131C471B,
   0x28DB77F523047D84, 0x32CAAB7B40C72493, 0x3C9EBE0A15C9BEBC, 0x431D67C49C100D4C,
   0x4CC5D4BECB3E42B6, 0x597F299CFC657E2A, 0x5FCB6FAB3AD6FAEC, 0x6C44198C4A475817]

/-- Extend the 16 message words of a SHA-512 block to the full 80-word
schedule; words are kept most-recent-first. -/
def sha512ExtendRev : Nat → List Nat → List Nat
  | 0, ws => ws
  | f + 1, ws =>
    let w2 := ws.getD 1 0
    let w7 := ws.getD 6 0
    let w15 := ws.getD 14 0
    let w16 := ws.getD 15 0
    let s0 := (rotr64 1 w15) ^^^ (rotr64 8 w15) ^^^ (w15 >>> 7)
    let s1 := (rotr64 19 w2) ^^^ (rotr64 61 w2) ^^^ (w2 >>> 6)
    sha512ExtendRev f (((w16 + s0 + w7 + s1) % 2 ^ 64) :: ws)

/-- One round of the SHA-512 compression function, on the same state shape
as SHA-256 but with 64-bit words. -/
def sha512Round (st : Sha256State) (kw : Nat × Nat) : Sha256State :=
  let S1 := (rotr64 14 st.e) ^^^ (rotr64 18 st.e) ^^^ (rotr64 41 st.e)
  let ch := (st.e &&& st.f) ^^^ ((st.e ^^^ (2 ^ 64 - 1)) &&& st.g)
  let temp1 := (st.h + S1 + ch + kw.1 + kw.2) % 2 ^ 64
  let S0 := (rotr64 28 st.a) ^^^ (rotr64 34 st.a) ^^^ (rotr64 39 st.a)
  let maj := (st.a &&& st.b) ^^^ (st.a &&& st.c) ^^^ (st.b &&& st.c)
  let temp2 := (S0 + maj) % 2 ^ 64
  { a := (temp1 + temp2) % 2 ^ 64, b := st.a, c := st.b, d := st.c,
    e := (st.d + temp1) % 2 ^ 64, f := st.e, g := st.f, h := st.g }

/-- Process one 128-byte SHA-512 block. -/
def sha512Block (st : Sha256State) (block : List Nat) : Sha256State :=
  let w0 := (List.range 16).map fun j => beToNat ((block.drop (8 * j)).take 8)
  let ws := (sha512ExtendRev 64 w0.reverse).reverse
  let r := (sha512K.zip ws).foldl sha512Round st
  { a := (st.a + r.a) % 2 ^ 64, b := (st.b + r.b) % 2 ^ 64,
    c := (st.c + r.c) % 2 ^ 64, d := (st.d + r.d) % 2 ^ 64,
    e := (st.e + r.e) % 2 ^ 64, f := (st.f + r.f) % 2 ^ 64,
    g := (st.g + r.g) % 2 ^ 64, h := (st.h + r.h) % 2 ^ 64 }

/-- The initial SHA-512 state. -/
def sha512Init : Sha256State :=
  { a := 0x6A09E667F3BCC908, b := 0xBB67AE8584CAA73B, c := 0x3C6EF372FE94F82B,
    d := 0xA54FF53A5F1D36F1, e := 0x510E527FADE682D1, f := 0x9B05688C2B3E6C1F,
    g := 0x1F83D9ABFB41BD6B, h := 0x5BE0CD19137E2179 }

/-- SHA-512 digest of a byte list: 64 bytes. -/
def sha512 (msg : List Nat) : List Nat :=
  let st := (shaBlocks 128 (shaPad 128 16 msg)).foldl sha512Block sha512Init
  beBytesFixed 8 st.a ++ beBytesFixed 8 st.b ++ beBytesFixed 8 st.c ++
  beBytesFixed 8 st.d ++ beBytesFixed 8 st.e ++ beBytesFixed 8 st.f ++
  beBytesFixed 8 st.g ++ beBytesFixed 8 st.h

theorem sha512_length (msg : List Nat) : (sha512 msg).length = 64 := by
  simp [sha512, beBytesFixed_length]

theorem sha512_byteList (msg : List Nat) : ByteList (sha512 msg) := by
  intro x hx
  simp only [sha512, List.mem_append] at hx
  rcases hx with ((((((h | h) | h) | h) | h) | h) | h) | h <;>
    exact beBytesFixed_byteList 8 _ x h

/-- HMAC-SHA512 (RFC 2104): what `Hmac<Sha512>::new_from_slice` +
`update` + `finalize` computes in `derive_non_hardened`. -/
def hmacSha512 (key msg : List Nat) : List Nat :=
  let k0 := if key.length > 128 then sha512 key else key
  let kp := k0 ++ List.replicate (128 - k0.length) 0
  let ipad := kp.map (fun b => b ^^^ 0x36)
  let opad := kp.map (fun b => b ^^^ 0x5c)
  sha512 (opad ++ sha512 (ipad ++ msg))

theorem hmacSha512_length (key msg : List Nat) :
    (hmacSha512 key msg).length = 64 := sha512_length _

theorem hmacSha512_byteList (key msg : List Nat) :
    ByteList (hmacSha512 key msg) := sha512_byteList _

/-! ## RIPEMD-160, the `ripemd::Ripemd160` digest used for HASH160 -/

/-- Left rotation on 32-bit words. -/
def rotl32 (n x : Nat) : Nat := ((x <<< n) ||| (x >>> (32 - n))) % 2 ^ 32

/-- Little-endian bytes of `n`, exactly `w` bytes wide. -/
def leBytesFixed (w n : Nat) : List Nat := (beBytesFixed w n).reverse

/-- Interpret a little-endian byte list as a natural number. -/
def leToNat (l : List Nat) : Nat := beToNat l.reverse

/-- Message-word order of the left line of RIPEMD-160. -/
def ripemdRL : List Nat :=
  [0, 1, 2, 3, 4, 5, 6, 7, 8, 9, 10, 11, 12, 13, 14, 15,
   7, 4, 13, 1, 10, 6, 15, 3, 12, 0, 9, 5, 2, 14, 11, 8,
   3, 10, 14, 4, 9, 15, 8, 1, 2, 7, 0, 6, 13, 11, 5, 12,
   1, 9, 11, 10, 0, 8, 12, 4, 13, 3, 7, 15, 14, 5, 6, 2,
   4, 0, 5, 9, 7, 12, 2, 10, 14, 1, 3, 8, 11, 6, 15, 13]

/-- Message-word order of the right line of RIPEMD-160. -/
def ripemdRR : List Nat :=
  [5, 14, 7, 0, 9, 2, 11, 4, 13, 6, 15, 8, 1, 10, 3, 12,
   6, 11, 3, 7, 0, 13, 5, 10, 14, 15, 8, 12, 4, 9, 1, 2,
   15, 5, 1, 3, 7, 14, 6, 9, 11, 8, 12, 2, 10, 0, 4, 13,
   8, 6, 4, 1, 3, 11, 15, 0, 5, 12, 2, 13, 9, 7, 10, 14,
   12, 15, 10, 4, 1, 5, 8, 7, 6, 2, 13, 14, 0, 3, 9, 11]

/-- Rotation amounts of the left line of RIPEMD-160. -/
def ripemdSL : List Nat :=
  [11, 14, 15, 12, 5, 8, 7, 9, 11, 13, 14, 15, 6, 7, 9, 8,
   7, 6, 8, 13, 11, 9, 7, 15, 7, 12, 15, 9, 11, 7, 13, 12,
   11, 13, 6, 7, 14, 9, 13, 15, 14, 8, 13, 6, 5, 12, 7, 5,
   11, 12, 14, 15, 14, 15, 9, 8, 9, 14, 5, 6, 8, 6, 5, 12,
   9, 15, 5, 11, 6, 8, 13, 12, 5, 12, 13, 14, 11, 8, 5, 6]

/-- Rotation amounts of the right line of RIPEMD-160. -/
def ripemdSR : List Nat :=
  [8, 9, 9, 11, 13, 15, 15, 5, 7, 7, 8, 11, 14, 14, 12, 6,
   9, 13, 15, 7, 12, 8, 9, 11, 7, 7, 12, 7, 6, 15, 13, 11,
   9, 7, 15, 11, 8, 6, 6, 14, 12, 13, 5, 14, 13, 13, 7, 5,
   15, 5, 8, 11, 14, 14, 6, 14, 6, 9, 12, 9, 12, 5, 15, 8,
   8, 5, 12, 9, 12, 5, 14, 6, 8, 13, 6, 5, 15, 13, 11, 11]

/-- The selection function of RIPEMD-160, by round group. -/
def ripemdF (grp x y z : Nat) : Nat :=
  let notv := fun v => v ^^^ (2 ^ 32 - 1)
  if grp = 0 then x ^^^ y ^^^ z
  else if grp = 1 then (x &&& y) ||| (notv x &&& z)
  else if grp = 2 then (x ||| notv y) ^^^ z
  else if grp = 3 then (x &&& z) ||| (y &&& notv z)
  else x ^^^ (y ||| notv z)

/-- Additive constants of the left line, by round group. -/
def ripemdKL : List Nat := [0, 0x5A827999, 0x6ED9EBA1, 0x8F1BBCDC, 0xA953FD4E]

/-- Additive constants of the right line, by round group. -/
def ripemdKR : List Nat := [0x50A28BE6, 0x5C4DD124, 0x6D703EF3, 0x7A6D76E9, 0]

/-- One RIPEMD-160 line (left or right): 80 rounds over the state
`(a, b, c, d, e)`, with `flip` selecting the reversed function order of
the right line. -/
def ripemdLine (x : List Nat) (rt st kt : List Nat) (flip : Bool)
    (init : Nat × Nat × Nat × Nat × Nat) : Nat × Nat × Nat × Nat × Nat :=
  (List.range 80).foldl
    (fun (s : Nat × Nat × Nat × Nat × Nat) j =>
      let (a, b, c, d, e) := s
      let grp := if flip then 4 - j / 16 else j / 16
      let t := rotl32 (st.getD j 0)
        ((a + ripemdF grp b c d + x.getD (rt.getD j 0) 0 + kt.getD (j / 16) 0)
          % 2 ^ 32)
      (e, (t + e) % 2 ^ 32, b, rotl32 10 c, d))
    init

/-- Process one 64-byte RIPEMD-160 block (words loaded little-endian). -/
def ripemdBlockStep (h : Nat × Nat × Nat × Nat × Nat) (block : List Nat) :
    Nat × Nat × Nat × Nat × Nat :=
  let x := (List.range 16).map fun j => leToNat ((block.drop (4 * j)).take 4)
  let (h0, h1, h2, h3, h4) := h
  let (al, bl, cl, dl, el) := ripemdLine x ripemdRL ripemdSL ripemdKL false h
  let (ar, br, cr, dr, er) := ripemdLine x ripemdRR ripemdSR ripemdKR true h
  ((h1 + cl + dr) % 2 ^ 32, (h2 + dl + er) % 2 ^ 32, (h3 + el + ar) % 2 ^ 32,
   (h4 + al + br) % 2 ^ 32, (h0 + bl + cr) % 2 ^ 32)

/-- RIPEMD-160 padding: like SHA-2's but the length is little-endian. -/
def ripemdPad (msg : List Nat) : List Nat :=
  let zeros := (64 - (msg.length + 9) % 64) % 64
  msg ++ [0x80] ++ List.replicate zeros 0 ++ leBytesFixed 8 (msg.length * 8)

/-- RIPEMD-160 digest of a byte list: 20 bytes (words stored little-endian). -/
def ripemd160 (msg : List Nat) : List Nat :=
  let init : Nat × Nat × Nat × Nat × Nat :=
    (0x67452301, 0xEFCDAB89, 0x98BADCFE, 0x10325476, 0xC3D2E1F0)
  let (h0, h1, h2, h3, h4) :=
    (shaBlocks 64 (ripemdPad msg)).foldl ripemdBlockStep init
  leBytesFixed 4 h0 ++ leBytesFixed 4 h1 ++ leBytesFixed 4 h2 ++
  leBytesFixed 4 h3 ++ leBytesFixed 4 h4

theorem leBytesFixed_length (w n : Nat) : (leBytesFixed w n).length = w := by
  simp [leBytesFixed, beBytesFixed_length]

theorem leBytesFixed_byteList (w n : Nat) : ByteList (leBytesFixed w n) := by
  intro x hx
  exact beBytesFixed_byteList w n x (by simpa [leBytesFixed] using hx)

theorem ripemd160_length (msg : List Nat) : (ripemd160 msg).length = 20 := by
  simp only [ripemd160]
  generalize (shaBlocks 64 (ripemdPad msg)).foldl ripemdBlockStep _ = h
  obtain ⟨h0, h1, h2, h3, h4⟩ := h
  simp [leBytesFixed_length]

theorem ripemd160_byteList (msg : List Nat) : ByteList (ripemd160 msg) := by
  simp only [ripemd160]
  generalize (shaBlocks 64 (ripemdPad msg)).foldl ripemdBlockStep _ = h
  obtain ⟨h0, h1, h2, h3, h4⟩ := h
  intro x hx
  simp only [List.mem_append] at hx
  rcases hx with (((h | h) | h) | h) | h <;> exact leBytesFixed_byteList 4 _ x h

/-! ## secp256k1 (SEC 2), the curve arithmetic behind `secp256k1::PublicKey` -/

/-- The secp256k1 base-field prime. -/
def secpP : Nat := 2 ^ 256 - 2 ^ 32 - 977

/-- The secp256k1 group order. -/
def secpN : Nat :=
  0xFFFFFFFFFFFFFFFFFFFFFFFFFFFFFFFEBAAEDCE6AF48A03BBFD25E8CD0364141

/-- x-coordinate of the secp256k1 generator G. -/
def secpGx : Nat :=
  0x79BE667EF9DCBBAC55A06295CE870B07029BFCDB2DCE28D959F2815B16F81798

/-- y-coordinate of the secp256k1 generator G. -/
def secpGy : Nat :=
  0x483ADA7726A3C4655DA4FBFC0E1108A8FD17B448A68554199C47D08FFB10D4B8

/-- Field subtraction mod `secpP`. -/
def fsub (a b : Nat) : Nat := (a % secpP + (secpP - b % secpP)) % secpP

/-- Modular exponentiation by binary splitting of the exponent, with
enough fuel for any 256-bit exponent. -/
def modpowAux : Nat → Nat → Nat → Nat → Nat
  | 0, _, _, m => 1 % m
  | fuel + 1, b, e, m =>
    if e = 0 then 1 % m
    else
      let r := modpowAux fuel (b * b % m) (e / 2) m
      if e % 2 = 1 then r * b % m else r

/-- Modular exponentiation `b ^ e mod m` for exponents below `2 ^ 260`. -/
def modpow (b e m : Nat) : Nat := modpowAux 260 (b % m) e m

/-- Inverse in the secp256k1 base field, by Fermat's little theorem. -/
def finv (a : Nat) : Nat := modpow a (secpP - 2) secpP

/-- Square root in the secp256k1 base field (`p ≡ 3 mod 4`). -/
def fsqrt (a : Nat) : Nat := modpow a ((secpP + 1) / 4) secpP

/-- A point in Jacobian coordinates; `z = 0` encodes the point at infinity. -/
structure Jac where
  x : Nat
  y : Nat
  z : Nat
deriving Repr, DecidableEq

/-- The point at infinity. -/
def jacInf : Jac := { x := 0, y := 1, z := 0 }

/-- Jacobian point doubling on `y² = x³ + 7` (a = 0). -/
def jDouble (p : Jac) : Jac :=
  if p.z % secpP = 0 ∨ p.y % secpP = 0 then jacInf
  else
    let s := 4 * p.x * p.y % secpP * p.y % secpP
    let m := 3 * p.x % secpP * p.x % secpP
    let x3 := fsub (m * m % secpP) (2 * s)
    let y3 := fsub (m * fsub s x3 % secpP)
      (8 * p.y % secpP * p.y % secpP * p.y % secpP * p.y % secpP)
    let z3 := 2 * p.y % secpP * p.z % secpP
    { x := x3, y := y3, z := z3 }

/-- Jacobian point addition on secp256k1. -/
def jAdd (p q : Jac) : Jac :=
  if p.z % secpP = 0 then q
  else if q.z % secpP = 0 then p
  else
    let z1z1 := p.z * p.z % secpP
    let z2z2 := q.z * q.z % secpP
    let u1 := p.x * z2z2 % secpP
    let u2 := q.x * z1z1 % secpP
    let s1 := p.y * z2z2 % secpP * q.z % secpP
    let s2 := q.y * z1z1 % secpP * p.z % secpP
    let h := fsub u2 u1
    let r := fsub s2 s1
    if h = 0 then
      if r = 0 then jDouble p else jacInf
    else
      let h2 := h * h % secpP
      let h3 := h2 * h % secpP
      let u1h2 := u1 * h2 % secpP
      let x3 := fsub (fsub (r * r % secpP) h3) (2 * u1h2)
      let y3 := fsub (r * fsub u1h2 x3 % secpP) (s1 * h3 % secpP)
      let z3 := h * p.z % secpP * q.z % secpP
      { x := x3, y := y3, z := z3 }

/-- Double-and-add scalar multiplication, least-significant bit first. -/
def jSmulAux : Nat → Nat → Jac → Jac → Jac
  | 0, _, _, acc => acc
  | fuel + 1, k, base, acc =>
    if k = 0 then acc
    else
      let acc' := if k % 2 = 1 then jAdd acc base else acc
      jSmulAux fuel (k / 2) (jDouble base) acc'

/-- Scalar multiplication `k · P` for `k < 2 ^ 260`. -/
def jSmul (k : Nat) (p : Jac) : Jac := jSmulAux 260 k p jacInf

/-- Convert a Jacobian point to affine coordinates; `none` is infinity. -/
def jToAffine (p : Jac) : Option (Nat × Nat) :=
  if p.z % secpP = 0 then none
  else
    let zi := finv p.z
    let zi2 := zi * zi % secpP
    some (p.x % secpP * zi2 % secpP, p.y % secpP * zi2 % secpP * zi % secpP)

/-- A parsed compressed public key, as held inside `secp256k1::PublicKey`:
an affine point on the curve. -/
structure PublicKey where
  x : Nat
  y : Nat
deriving Repr, DecidableEq

/-- The error enumeration of the `secp256k1` crate (`secp256k1::Error`). -/
inductive SecpError where
  | IncorrectSignature
  | InvalidMessage
  | InvalidPublicKey
  | InvalidSignature
  | InvalidSecretKey
  | InvalidSharedSecret
  | InvalidRecoveryId
  | InvalidTweak
  | NotEnoughMemory
  | InvalidPublicKeySum
  | InvalidParityValue
deriving Repr, DecidableEq

/-- Model of `PublicKey::from_slice` on a 33-byte compressed encoding: prefix `0x02`
or `0x03`, then the big-endian x-coordinate; the y-coordinate is
recovered by a square root and matched to the prefix parity.  (The
parity re-check below differs from libsecp256k1 only at a hypothetical
`y = 0` curve point, which does not exist on secp256k1 because the group
order is odd.) -/
def PublicKey.from_slice (l : List Nat) : Except SecpError PublicKey :=
  if l.length ≠ 33 then .error .InvalidPublicKey
  else
    let pre := l.getD 0 0
    if pre ≠ 2 ∧ pre ≠ 3 then .error .InvalidPublicKey
    else
      let x := beToNat (l.drop 1)
      if secpP ≤ x then .error .InvalidPublicKey
      else
        let rhs := (x * x % secpP * x + 7) % secpP
        let y0 := fsqrt rhs
        let y := if y0 % 2 = pre % 2 then y0 else (secpP - y0) % secpP
        if y * y % secpP = rhs ∧ y % 2 = pre % 2 then .ok { x := x, y := y }
        else .error .InvalidPublicKey

/-- Model of `PublicKey::serialize`: the 33-byte compressed encoding. -/
def PublicKey.serialize (pk : PublicKey) : List Nat :=
  (if pk.y % 2 = 0 then 2 else 3) :: beBytesFixed 32 pk.x

/-- Model of `SecretKey::from_slice` on the 32-byte HMAC half `I_L`: the scalar
must be a valid nonzero group scalar. -/
def SecretKey.from_slice (l : List Nat) : Except SecpError Nat :=
  if l.length ≠ 32 then .error .InvalidSecretKey
  else
    let t := beToNat l
    if t = 0 ∨ secpN ≤ t then .error .InvalidSecretKey else .ok t

/-- Model of `PublicKey::add_exp_tweak`: `self + t·G`, failing on the point at
infinity. -/
def PublicKey.add_exp_tweak (pk : PublicKey) (t : Nat) :
    Except SecpError PublicKey :=
  let tg := jSmul t { x := secpGx, y := secpGy, z := 1 }
  let sum := jAdd tg { x := pk.x, y := pk.y, z := 1 }
  match jToAffine sum with
  | none => .error .InvalidTweak
  | some (x, y) => .ok { x := x, y := y }

/-! ## Base58 (the `base58`/`bs58` crates' alphabet and codec) -/

/-- The Base58 alphabet. -/
def b58Chars : List Char :=
  ['1', '2', '3', '4', '5', '6', '7', '8', '9', 'A', 'B', 'C', 'D', 'E', 'F',
   'G', 'H', 'J', 'K', 'L', 'M', 'N', 'P', 'Q', 'R', 'S', 'T', 'U', 'V', 'W',
   'X', 'Y', 'Z', 'a', 'b', 'c', 'd', 'e', 'f', 'g', 'h', 'i', 'j', 'k', 'm',
   'n', 'o', 'p', 'q', 'r', 's', 't', 'u', 'v', 'w', 'x', 'y', 'z']

/-- Little-endian base-`b` digits of `n`, by fuel-driven structural
recursion so that the kernel can evaluate it; agrees with `Nat.digits`
whenever `n < b ^ fuel` (see `digitsLE_eq_digits`). -/
def digitsLE (b : Nat) : Nat → Nat → List Nat
  | 0, _ => []
  | f + 1, n => if n = 0 then [] else n % b :: digitsLE b f (n / b)

theorem digitsLE_eq_digits (b f n : Nat) (hb : 2 ≤ b) (h : n < b ^ f) :
    digitsLE b f n = Nat.digits b n := by
  induction f generalizing n with
  | zero =>
    simp only [pow_zero, Nat.lt_one_iff] at h
    subst h
    simp [digitsLE]
  | succ f ih =>
    by_cases hn : n = 0
    · subst hn; simp [digitsLE]
    · show (if n = 0 then [] else n % b :: digitsLE b f (n / b)) = _
      rw [if_neg hn, ih (n / b)
        (Nat.div_lt_of_lt_mul (by rw [← pow_succ'] at *; omega)),
        Nat.digits_def' (by omega) (Nat.pos_of_ne_zero hn)]

theorem digitsLE_sound (b f n : Nat) (hb : 2 ≤ b)
    (h : (digitsLE b f n).length < f) : digitsLE b f n = Nat.digits b n := by
  induction f generalizing n with
  | zero => omega
  | succ f ih =>
    by_cases hn : n = 0
    · subst hn; simp [digitsLE]
    · have hd : digitsLE b (f + 1) n = n % b :: digitsLE b f (n / b) := by
        show (if n = 0 then [] else n % b :: digitsLE b f (n / b)) = _
        rw [if_neg hn]
      rw [hd] at h ⊢
      rw [ih (n / b) (by simpa using h),
        Nat.digits_def' (by omega) (Nat.pos_of_ne_zero hn)]

/-- Index of a character in a character list. -/
def charIndex : List Char → Char → Option Nat
  | [], _ => none
  | a :: rest, c => if c = a then some 0 else (charIndex rest c).map (· + 1)

/-- The digit value of a Base58 character, `none` outside the alphabet. -/
def b58Val (c : Char) : Option Nat := charIndex b58Chars c

/-- The Base58 character of a digit below 58. -/
def b58Char (d : Nat) : Char := b58Chars.getD d '1'

/-- Base58 decoding (`FromBase58::from_base58`): leading `'1'`s become
leading zero bytes; the remaining characters are read as a base-58
number whose big-endian base-256 digits follow.  Fails on any character
outside the alphabet. -/
def b58Decode (s : String) : Option (List Nat) :=
  if s.toList.all (fun c => (b58Val c).isSome) then
    let v := s.toList.foldl (fun a c => a * 58 + (b58Val c).getD 0) 0
    let ones := (s.toList.takeWhile (· = '1')).length
    some (List.replicate ones 0 ++ (digitsLE 256 700 v).reverse)
  else none

/-- Base58 encoding (`ToBase58::to_base58`): leading zero bytes become
leading `'1'`s; the rest is the base-58 numeral of the value. -/
def b58Encode (b : List Nat) : String :=
  let ones := (b.takeWhile (· = 0)).length
  String.mk (List.replicate ones '1' ++
    ((digitsLE 58 700 (beToNat b)).reverse.map b58Char))

/-! ## `src/lib.rs`: the `Xpub` extended public key -/

/-- The `Display` text of a `secp256k1::Error`, used when `lib.rs`
formats an error with `{}`. -/
def SecpError.display : SecpError → String
  | .IncorrectSignature => "signature failed verification"
  | .InvalidMessage => "message was not 32 bytes (do you need to hash?)"
  | .InvalidPublicKey => "malformed public key"
  | .InvalidSignature => "malformed signature"
  | .InvalidSecretKey => "malformed or out-of-range secret key"
  | .InvalidSharedSecret => "malformed or out-of-range shared secret"
  | .InvalidRecoveryId => "bad recovery id"
  | .InvalidTweak => "bad tweak"
  | .NotEnoughMemory => "not enough memory"
  | .InvalidPublicKeySum => "the sum of public keys was invalid"
  | .InvalidParityValue => "couldn" ++ String.mk [Char.ofNat 39] ++ "t create parity"

/-- The extended public key of BIP32, exactly the fields of `struct Xpub`. -/
structure Xpub where
  depth : Nat
  parent_fingerprint : Nat
  child_number : Nat
  chain_code : List Nat
  public_key : PublicKey
deriving Repr, DecidableEq

/-- Model of `Xpub::new`. -/
def Xpub.new (depth parent_fingerprint child_number : Nat)
    (chain_code : List Nat) (public_key : PublicKey) : Xpub :=
  { depth := depth, parent_fingerprint := parent_fingerprint,
    child_number := child_number, chain_code := chain_code,
    public_key := public_key }

/-- Model of `Xpub::from_base58`: Base58-decode, check the length is exactly 82,
и extract the fields at their fixed offsets.  (Note: the code never
verifies the 4-byte checksum.) -/
def Xpub.from_base58 (xpub : String) : Except String Xpub :=
  match b58Decode xpub with
  | none => .error "Base58 decode error: InvalidBase58Character"
  | some decoded =>
    if decoded.length ≠ 82 then .error "Invalid xpub length"
    else
      let depth := decoded.getD 4 0
      let parent_fingerprint := beToNat ((decoded.drop 5).take 4)
      let child_number := beToNat ((decoded.drop 9).take 4)
      let chain_code := (decoded.drop 13).take 32
      match PublicKey.from_slice ((decoded.drop 45).take 33) with
      | .error e => .error ("Invalid public key: " ++ e.display)
      | .ok public_key =>
        .ok (Xpub.new depth parent_fingerprint child_number chain_code
          public_key)

/-- Model of `Xpub::to_base58`: fixed `xpub` version bytes, the five fields, a
fresh double-SHA256 checksum, then Base58. -/
def Xpub.to_base58 (x : Xpub) : String :=
  let data := [0x04, 0x88, 0xB2, 0x1E] ++ [x.depth % 256] ++
    beBytesFixed 4 x.parent_fingerprint ++ beBytesFixed 4 x.child_number ++
    x.chain_code ++ x.public_key.serialize
  let checksum := (sha256 (sha256 data)).take 4
  b58Encode (data ++ checksum)

/-- Model of `Xpub::to_bitcoin_address`: legacy P2PKH Base58Check address. -/
def Xpub.to_bitcoin_address (x : Xpub) : String :=
  let pubkey_hash := ripemd160 (sha256 x.public_key.serialize)
  let data := 0x00 :: pubkey_hash
  let checksum := (sha256 (sha256 data)).take 4
  b58Encode (data ++ checksum)

/-- Model of `Xpub::fingerprint`: the first four bytes of
RIPEMD160(SHA256(compressed public key)), read big-endian. -/
def Xpub.fingerprint (x : Xpub) : Nat :=
  let hash160 := ripemd160 (sha256 x.public_key.serialize)
  beToNat (hash160.take 4)

/-- Model of `Xpub::derive_non_hardened`: single-step non-hardened BIP32 child
derivation.  The `u8` child depth is `(depth + 1) % 256`, the wrapping
behaviour of release-mode Rust. -/
def Xpub.derive_non_hardened (x : Xpub) (index : Nat) :
    Except SecpError Xpub :=
  if 0x80000000 ≤ index then .error .InvalidTweak
  else
    let data := x.public_key.serialize ++ beBytesFixed 4 index
    let result := hmacSha512 x.chain_code data
    let i_l := result.take 32
    let i_r := result.drop 32
    match SecretKey.from_slice i_l with
    | .error e => .error e
    | .ok tweak =>
      match x.public_key.add_exp_tweak tweak with
      | .error _ => .error .InvalidTweak
      | .ok child_pubkey =>
        .ok { depth := (x.depth + 1) % 256,
              parent_fingerprint := x.fingerprint,
              child_number := index,
              chain_code := i_r,
              public_key := child_pubkey }

/-- The `for i in 0..count` loop shared by both batch drivers: derive
child `i` of `x` and render its legacy address, failing fast. -/
def Xpub.deriveAddrLoop (x : Xpub) : Nat → Nat → Except String (List String)
  | _, 0 => .ok []
  | i, r + 1 =>
    match x.derive_non_hardened i with
    | .ok child =>
      match x.deriveAddrLoop (i + 1) r with
      | .ok rest => .ok (child.to_bitcoin_address :: rest)
      | .error e => .error e
    | .error e =>
      .error ("Error deriving child " ++ toString i ++ ": " ++ e.display)

/-- Model of `Xpub::derive_bip32_addresses`. -/
def Xpub.derive_bip32_addresses (x : Xpub) (count : Nat) :
    Except String (List String) :=
  if 100 < count then .error ("Can" ++ String.mk [Char.ofNat 39] ++ "t generate more than 100 addresses")
  else x.deriveAddrLoop 0 count

/-- Model of `Xpub::derive_bip44_addresses`: derive the account node `m/0`, then
children `account/i` for `i` in `0..count`. -/
def Xpub.derive_bip44_addresses (x : Xpub) (count : Nat) :
    Except String (List String) :=
  if 100 < count then .error ("Can" ++ String.mk [Char.ofNat 39] ++ "t generate more than 100 addresses")
  else
    match x.derive_non_hardened 0 with
    | .error e => .error ("Error deriving account: " ++ e.display)
    | .ok account => account.deriveAddrLoop 0 count

/-! ## `src/utils.rs`: the `CashAddress` renderer -/

/-- Model of `AddressFormat`; the third variant is `CashAddrWithPrefix` in the
source, renamed here to keep the development's identifier conventions. -/
inductive AddressFormat where
  | Legacy
  | CashAddr
  | CashAddrWithHrp
deriving Repr, DecidableEq

/-- The CashAddr charset constant `CASHADDR_CHARSET`. -/
def cashaddrCharset : List Char := "qpzry9x8gf2tvdw0s3jn54khce6mua7l".toList

/-- The byte values of the literal `CASHADDR_PREFIX` string
`"bitcoincash"`. -/
def cashaddrHrpBytes : List Nat := "bitcoincash".toList.map Char.toNat

namespace CashAddress

/-- The inner `while bits >= to` loop of `convert_bits`: emit 5-bit (in
general `toB`-bit) groups from the accumulator; fuel-driven with fuel
at least `bits`. -/
def pushGroups (toB maxv : Nat) : Nat → Nat → Nat → List Nat × Nat
  | 0, _, bits => ([], bits)
  | f + 1, acc, bits =>
    if toB ≤ bits then
      let bits' := bits - toB
      let g := (acc >>> bits') &&& maxv
      let (gs, bf) := pushGroups toB maxv f acc bits'
      (g :: gs, bf)
    else ([], bits)

/-- The `for value in data` loop of `convert_bits`; the accumulator is a
wrapping `u64` as in the source. -/
def cbFold (fromB toB maxv : Nat) :
    List Nat → Nat → Nat → Except String (List Nat × Nat × Nat)
  | [], acc, bits => .ok ([], acc, bits)
  | v :: rest, acc, bits =>
    if 2 ^ fromB ≤ v then .error ("Invalid value " ++ toString v)
    else
      let acc' := ((acc <<< fromB) % 2 ^ 64) ||| v
      let bits' := bits + fromB
      let (gs, bf) := pushGroups toB maxv bits' acc' bits'
      match cbFold fromB toB maxv rest acc' bf with
      | .error e => .error e
      | .ok (gs', accf, bitsf) => .ok (gs ++ gs', accf, bitsf)

/-- Model of `CashAddress::convert_bits`. -/
def convert_bits (data : List Nat) (fromB toB : Nat) (pad : Bool) :
    Except String (List Nat) :=
  if 32 ≤ fromB ∨ 32 ≤ toB then
    .error "Invalid bit size: from and to must be less than 32"
  else
    let maxv := 2 ^ toB - 1
    match cbFold fromB toB maxv data 0 0 with
    | .error e => .error e
    | .ok (gs, acc, bits) =>
      if pad ∧ 0 < bits then .ok (gs ++ [(acc <<< (toB - bits)) &&& maxv])
      else .ok gs

/-- Model of `CashAddress::build_payload`: type byte `0x00`, the 20-byte hash,
regrouped 8 → 5 bits with padding.  The `.expect` in the source cannot
fire on byte input; the error arm is modelled as the empty list. -/
def build_payload (hash : List Nat) : List Nat :=
  match convert_bits (0x00 :: hash) 8 5 true with
  | .ok r => r
  | .error _ => []

/-- Model of `CashAddress::hrp_expand`: low five bits of each prefix byte, then a
zero separator. -/
def hrp_expand : List Nat := cashaddrHrpBytes.map (· &&& 0x1F) ++ [0]

/-- One step of `CashAddress::poly_mod`'s loop. -/
def polyModStep (c : Nat) (d : Nat) : Nat :=
  let c0 := (c >>> 35) % 256
  let c1 := (((c &&& 0x07FFFFFFFF) <<< 5) ^^^ d)
  let c1 := if c0 &&& 0x01 ≠ 0 then c1 ^^^ 0x98F2BC8E61 else c1
  let c1 := if c0 &&& 0x02 ≠ 0 then c1 ^^^ 0x79B76D99E2 else c1
  let c1 := if c0 &&& 0x04 ≠ 0 then c1 ^^^ 0xF33E5FB3C4 else c1
  let c1 := if c0 &&& 0x08 ≠ 0 then c1 ^^^ 0xAE2EABE2A8 else c1
  if c0 &&& 0x10 ≠ 0 then c1 ^^^ 0x1E4F43E470 else c1

/-- Model of `CashAddress::poly_mod`. -/
def poly_mod (data : List Nat) : Nat := (data.foldl polyModStep 1) ^^^ 1

/-- Model of `CashAddress::compute_checksum`: eight 5-bit groups of the 40-bit
polynomial over `hrp_expand ++ payload ++ eight zero groups`. -/
def compute_checksum (payload : List Nat) : List Nat :=
  let data := hrp_expand ++ payload ++ List.replicate 8 0
  let poly := poly_mod data
  (List.range 8).map fun i => (poly >>> (5 * (7 - i))) &&& 0x1F

/-- Model of `CashAddress::encode_payload`: map every 5-bit group through the
charset.  (The source indexes the charset string and would abort on a
group `≥ 32`; the default `'q'` models that arm, and the safety theorem
below shows it is never taken.) -/
def encode_payload (payload checksum : List Nat) : String :=
  String.mk ((payload ++ checksum).map fun b => cashaddrCharset.getD b 'q')

/-- Model of `CashAddress::cashaddr`. -/
def cashaddr (hash : List Nat) (withHrp : Bool) : String :=
  let payload := build_payload hash
  let checksum := compute_checksum payload
  let encoded := encode_payload payload checksum
  if withHrp then "bitcoincash:" ++ encoded else encoded

/-- Model of `CashAddress::legacy_address`. -/
def legacy_address (hash : List Nat) : String :=
  let address_byte := 0x00 :: hash
  let checksum := sha256 (sha256 address_byte)
  b58Encode (address_byte ++ checksum.take 4)

/-- Model of `CashAddress::from_pubkey`. -/
def from_pubkey (pubkey : List Nat) (format : AddressFormat) : String :=
  let hash := ripemd160 (sha256 pubkey)
  match format with
  | .Legacy => legacy_address hash
  | .CashAddr => cashaddr hash false
  | .CashAddrWithHrp => cashaddr hash true

end CashAddress

/-! ## Concrete data: the repository's own test vector

`TEST_XPUB` and the expected first address are the constants of
`tests/bip32_vectors.rs`; the parsed node and its children below were
computed with this embedding and are pinned here as literals so that
witnesses can apply the theorems to real data. -/

/-- Model of `TEST_XPUB` of `tests/bip32_vectors.rs`. -/
def TEST_XPUB : String :=
  "xpub681vrYy1g8k1xtcNPi2WN9pGiHDejoCvUT4GG2Mbs9rcs98VWvoQXmgT2J1umYQs9p2qp6xdMjJ2AU1rNcCMq9RmtKNhowJKYvVgKwS59xX"

/-- The node `TEST_XPUB` parses to. -/
def testXpub : Xpub :=
  { depth := 1, parent_fingerprint := 292460727, child_number := 0,
    chain_code := [22, 26, 41, 249, 207, 81, 126, 224, 215, 58, 44, 116,
      122, 16, 12, 125, 164, 155, 240, 166, 107, 62, 206, 119, 151, 189,
      71, 32, 97, 186, 238, 133],
    public_key :=
      { x := 69920494599200244561790057891782573165255831815507290740762632837298307662798,
        y := 105301631846568818641628084873599964032208637974320336660905107178109733757849 } }

/-- The child `testXpub/0`. -/
def testChild0 : Xpub :=
  { depth := 2, parent_fingerprint := 468699819, child_number := 0,
    chain_code := [138, 151, 148, 216, 96, 66, 238, 166, 170, 27, 90, 95,
      73, 153, 221, 247, 141, 227, 90, 218, 123, 237, 180, 45, 133, 15,
      188, 211, 198, 222, 130, 103],
    public_key :=
      { x := 111252874931743892840250755362064757795245091730173435309798811762472808239279,
        y := 72605772895080051150261553974215440209611028512186173540431508581635542059031 } }

/-- The child `testXpub/0x7FFFFFFF` (largest non-hardened index). -/
def testChildMax : Xpub :=
  { depth := 2, parent_fingerprint := 468699819, child_number := 2147483647,
    chain_code := [95, 206, 136, 152, 141, 176, 152, 97, 117, 67, 79, 117,
      249, 108, 209, 142, 79, 37, 4, 205, 4, 50, 225, 141, 239, 172, 31,
      198, 55, 238, 147, 174],
    public_key :=
      { x := 52547333297417733615368837085049119430956766551093790950660279323150088765688,
        y := 111710585454037846574767105127741210440574149909829777795666524426062680593443 } }

/-- The grandchild `testXpub/0/0`. -/
def testGrandchild0 : Xpub :=
  { depth := 3, parent_fingerprint := 2746015979, child_number := 0,
    chain_code := [152, 146, 21, 225, 41, 5, 246, 188, 211, 99, 210, 103,
      32, 32, 184, 203, 149, 89, 47, 60, 183, 124, 126, 27, 110, 224, 185,
      116, 108, 43, 136, 216],
    public_key :=
      { x := 68304213728610141666588919126912892407654673881121302198738900973172196975192,
        y := 65920022930546308416909120257513957771128581970300426585897695805302236233334 } }

set_option maxRecDepth 1000000 in
/-- Embedding validation: parsing the repository's test xpub yields the
pinned node. -/
theorem validate_from_base58 : Xpub.from_base58 TEST_XPUB = .ok testXpub := by
  rfl

set_option maxRecDepth 1000000 in
/-- Embedding validation: the first derived address equals
`EXPECTED_BIP32_ADDRESSES[0]` of `tests/bip32_vectors.rs`. -/
theorem validate_bip32_vector :
    testXpub.derive_bip32_addresses 1 =
      .ok ["1FvSF5syVSTnsbNzFpPd4mNFcSvwtTxqLw"] := by
  rfl

/-! ## Derivation lemmas and claims C1, C2, C8 -/

/-- Characterization of a successful `derive_non_hardened` call: the
index is non-hardened, the tweak parses from the first HMAC half, the
tweak-add succeeds, and the child's fields are as constructed. -/
theorem derive_non_hardened_ok {x : Xpub} {i : Nat} {c : Xpub}
    (h : x.derive_non_hardened i = .ok c) :
    i < 0x80000000 ∧ ∃ t : Nat,
      SecretKey.from_slice ((hmacSha512 x.chain_code
        (x.public_key.serialize ++ beBytesFixed 4 i)).take 32) = .ok t ∧
      x.public_key.add_exp_tweak t = .ok c.public_key ∧
      c = { depth := (x.depth + 1) % 256,
            parent_fingerprint := x.fingerprint,
            child_number := i,
            chain_code := (hmacSha512 x.chain_code
              (x.public_key.serialize ++ beBytesFixed 4 i)).drop 32,
            public_key := c.public_key } := by
  unfold Xpub.derive_non_hardened at h
  split at h
  · exact absurd h (by simp)
  · simp only [] at h
    constructor
    · omega
    · split at h
      · exact absurd h (by simp)
      · rename_i t hsk
        split at h
        · exact absurd h (by simp)
        · rename_i pk hadd
          obtain ⟨rfl⟩ := Except.ok.inj h
          exact ⟨t, hsk, hadd, rfl⟩

/-- C1: for every parent `P` and index `i < 0x8000_0000` on which
derivation succeeds, the child's fields are exactly those of the BIP32
CKDpub construction: `depth` is the parent's plus one (as a `u8`),
`parent_fingerprint` is `fingerprint(P)`, `child_number` is `i`,
`chain_code` is the last 32 bytes of
`HMAC-SHA512(key = P.chain_code, data = ser(P.public_key) ‖ be32(i))`
(a 37-byte message), and `public_key` is the parent key tweak-added with
the scalar read from the first 32 bytes of that HMAC output. -/
theorem c1_derive_fields (p : Xpub) (i : Nat) (c : Xpub)
    (_hi : i < 0x80000000) (h : p.derive_non_hardened i = .ok c) :
    (p.public_key.serialize ++ beBytesFixed 4 i).length = 37 ∧
    c.depth = (p.depth + 1) % 256 ∧
    c.parent_fingerprint = p.fingerprint ∧
    c.child_number = i ∧
    c.chain_code = (hmacSha512 p.chain_code
      (p.public_key.serialize ++ beBytesFixed 4 i)).drop 32 ∧
    ∃ t : Nat,
      SecretKey.from_slice ((hmacSha512 p.chain_code
        (p.public_key.serialize ++ beBytesFixed 4 i)).take 32) = .ok t ∧
      p.public_key.add_exp_tweak t = .ok c.public_key := by
  obtain ⟨-, t, hsk, hadd, hc⟩ := derive_non_hardened_ok h
  refine ⟨?_, ?_, ?_, ?_, ?_, t, hsk, hadd⟩
  · simp [PublicKey.serialize, beBytesFixed_length]
  · rw [hc]
  · rw [hc]
  · rw [hc]
  · rw [hc]

set_option maxRecDepth 1000000 in
/-- Witness for C1 at the repository's test vector and index 0. -/
theorem c1_derive_fields_witness :
    (testXpub.public_key.serialize ++ beBytesFixed 4 0).length = 37 ∧
    testChild0.depth = (testXpub.depth + 1) % 256 ∧
    testChild0.parent_fingerprint = testXpub.fingerprint ∧
    testChild0.child_number = 0 ∧
    testChild0.chain_code = (hmacSha512 testXpub.chain_code
      (testXpub.public_key.serialize ++ beBytesFixed 4 0)).drop 32 ∧
    ∃ t : Nat,
      SecretKey.from_slice ((hmacSha512 testXpub.chain_code
        (testXpub.public_key.serialize ++ beBytesFixed 4 0)).take 32) = .ok t ∧
      testXpub.public_key.add_exp_tweak t = .ok testChild0.public_key :=
  c1_derive_fields testXpub 0 testChild0 (by norm_num) (by rfl)

set_option maxRecDepth 1000000 in
/-- Counterexample to C2: a hardened index is rejected, but with the
`InvalidTweak` error of the `secp256k1` crate — the very kind §7 of the
spec reserves for tweak-validity failures — because `lib.rs` has no
dedicated `HardenedNotSupported` kind (line 138 returns
`secp256k1::Error::InvalidTweak`). -/
theorem c2_counterexample :
    testXpub.derive_non_hardened 0x80000000 =
      .error SecpError.InvalidTweak := by
  rfl

/-- C2 (amended): every index `≥ 0x8000_0000` is rejected, with the
reused `InvalidTweak` error rather than a dedicated kind, and index
`0x7FFFFFFF` succeeds whenever the tweak scalar parses and the tweak-add
succeeds (no tweak-validity failure). -/
theorem c2_hardened_rejection :
    (∀ (x : Xpub) (i : Nat), 0x80000000 ≤ i →
      x.derive_non_hardened i = .error SecpError.InvalidTweak) ∧
    (∀ (x : Xpub) (t : Nat) (q : PublicKey),
      SecretKey.from_slice ((hmacSha512 x.chain_code
        (x.public_key.serialize ++ beBytesFixed 4 0x7FFFFFFF)).take 32) =
          .ok t →
      x.public_key.add_exp_tweak t = .ok q →
      ∃ c : Xpub, x.derive_non_hardened 0x7FFFFFFF = .ok c) := by
  constructor
  · intro x i hi
    unfold Xpub.derive_non_hardened
    rw [if_pos hi]
  · intro x t q hsk hadd
    refine ⟨{ depth := (x.depth + 1) % 256, parent_fingerprint := x.fingerprint,
              child_number := 0x7FFFFFFF,
              chain_code := (hmacSha512 x.chain_code
                (x.public_key.serialize ++ beBytesFixed 4 0x7FFFFFFF)).drop 32,
              public_key := q }, ?_⟩
    unfold Xpub.derive_non_hardened
    rw [if_neg (by norm_num)]
    simp only []
    rw [hsk]
    simp only []
    rw [hadd]

set_option maxRecDepth 1000000 in
/-- Witness for C2 at the repository's test vector: index `0x80000000`
fails with `InvalidTweak`; index `0x7FFFFFFF` succeeds. -/
theorem c2_hardened_rejection_witness :
    testXpub.derive_non_hardened 4000000000 =
      .error SecpError.InvalidTweak ∧
    ∃ c : Xpub, testXpub.derive_non_hardened 0x7FFFFFFF = .ok c :=
  ⟨c2_hardened_rejection.1 testXpub 4000000000 (by norm_num),
   c2_hardened_rejection.2 testXpub
     110345779333247941682804249802251314467166088761292043287130267888976594897595
     testChildMax.public_key (by rfl) (by rfl)⟩

/-- Model of `testXpub` with its `depth` field set to the maximal `u8` value. -/
def depth255Xpub : Xpub :=
  { depth := 255, parent_fingerprint := 292460727, child_number := 0,
    chain_code := [22, 26, 41, 249, 207, 81, 126, 224, 215, 58, 44, 116,
      122, 16, 12, 125, 164, 155, 240, 166, 107, 62, 206, 119, 151, 189,
      71, 32, 97, 186, 238, 133],
    public_key :=
      { x := 69920494599200244561790057891782573165255831815507290740762632837298307662798,
        y := 105301631846568818641628084873599964032208637974320336660905107178109733757849 } }

set_option maxRecDepth 1000000 in
/-- Counterexample to C8: deriving from a parent at depth 255 succeeds
and yields a child at depth 0 — the `u8` depth wraps (`self.depth + 1`
in release-mode Rust), contradicting "never wraps".  (A debug build
would abort on the same input instead of returning a child.) -/
theorem c8_counterexample :
    depth255Xpub.depth = 255 ∧
    ∃ c : Xpub, depth255Xpub.derive_non_hardened 0 = .ok c ∧ c.depth = 0 :=
  ⟨rfl,
   ⟨{ depth := 0, parent_fingerprint := 468699819, child_number := 0,
      chain_code := [138, 151, 148, 216, 96, 66, 238, 166, 170, 27, 90, 95,
        73, 153, 221, 247, 141, 227, 90, 218, 123, 237, 180, 45, 133, 15,
        188, 211, 198, 222, 130, 103],
      public_key :=
        { x := 111252874931743892840250755362064757795245091730173435309798811762472808239279,
          y := 72605772895080051150261553974215440209611028512186173540431508581635542059031 } },
    by rfl, rfl⟩⟩

/-- C8 (amended): the child depth is `(parent depth + 1) mod 256`; it
increments by exactly one for every parent below depth 255, and wraps to
0 exactly at depth 255. -/
theorem c8_depth_increment (x : Xpub) (i : Nat) (c : Xpub)
    (h : x.derive_non_hardened i = .ok c) :
    c.depth = (x.depth + 1) % 256 ∧
    (x.depth < 255 → c.depth = x.depth + 1) := by
  obtain ⟨-, t, -, -, hc⟩ := derive_non_hardened_ok h
  constructor
  · rw [hc]
  · intro hlt
    rw [hc]
    show (x.depth + 1) % 256 = x.depth + 1
    exact Nat.mod_eq_of_lt (by omega)

set_option maxRecDepth 1000000 in
/-- Witness for C8 (amended) at the repository's test vector. -/
theorem c8_depth_increment_witness :
    testChild0.depth = (testXpub.depth + 1) % 256 ∧
    (testXpub.depth < 255 → testChild0.depth = testXpub.depth + 1) :=
  c8_depth_increment testXpub 0 testChild0 (by rfl)

/-! ## Batch drivers: claims C5 and C6 -/

/-- A successful run of the address loop returns one address per
requested index. -/
theorem deriveAddrLoop_length (x : Xpub) :
    ∀ (r i : Nat) (l : List String),
      x.deriveAddrLoop i r = .ok l → l.length = r := by
  intro r
  induction r with
  | zero =>
    intro i l h
    obtain ⟨rfl⟩ := Except.ok.inj h
    rfl
  | succ r ih =>
    intro i l h
    unfold Xpub.deriveAddrLoop at h
    split at h
    · rename_i child hc
      split at h
      · rename_i rest hrest
        obtain ⟨rfl⟩ := Except.ok.inj h
        simpa using ih (i + 1) rest hrest
      · exact absurd h (by simp)
    · exact absurd h (by simp)

/-- A successful run of the address loop renders, at offset `i`, the
legacy address of the child at index `j + i`. -/
theorem deriveAddrLoop_get (x : Xpub) :
    ∀ (r j i : Nat) (l : List String),
      x.deriveAddrLoop j r = .ok l → i < r →
      ∃ c : Xpub, x.derive_non_hardened (j + i) = .ok c ∧
        l.getD i "" = c.to_bitcoin_address := by
  intro r
  induction r with
  | zero => omega
  | succ r ih =>
    intro j i l h hir
    unfold Xpub.deriveAddrLoop at h
    split at h
    · rename_i child hc
      split at h
      · rename_i rest hrest
        obtain ⟨rfl⟩ := Except.ok.inj h
        cases i with
        | zero => exact ⟨child, by simpa using hc, rfl⟩
        | succ i =>
          obtain ⟨c, hc', hl⟩ := ih (j + 1) i rest hrest (by omega)
          refine ⟨c, ?_, by simpa using hl⟩
          have : j + (i + 1) = j + 1 + i := by omega
          rw [this]
          exact hc'
      · exact absurd h (by simp)
    · exact absurd h (by simp)

/-- C5: the batch shape of both drivers.  `derive_bip32_addresses(x, 0)`
is the empty sequence for every node; `derive_bip44_addresses(x, 0)` is
empty whenever it returns a sequence at all (it first derives the
account node `m/0`, which in principle can fail); and whenever either
driver returns a sequence for a count `N` (the driver itself rejects
`N > 100`), that sequence has exactly `N` entries. -/
theorem c5_batch_shape :
    (∀ x : Xpub, x.derive_bip32_addresses 0 = .ok []) ∧
    (∀ (x : Xpub) (l : List String),
      x.derive_bip44_addresses 0 = .ok l → l = []) ∧
    (∀ (x : Xpub) (count : Nat) (l : List String),
      x.derive_bip32_addresses count = .ok l → l.length = count) ∧
    (∀ (x : Xpub) (count : Nat) (l : List String),
      x.derive_bip44_addresses count = .ok l → l.length = count) := by
  have hb32 : ∀ (x : Xpub) (count : Nat) (l : List String),
      x.derive_bip32_addresses count = .ok l → l.length = count := by
    intro x count l h
    unfold Xpub.derive_bip32_addresses at h
    split at h
    · exact absurd h (by simp)
    · exact deriveAddrLoop_length x count 0 l h
  have hb44 : ∀ (x : Xpub) (count : Nat) (l : List String),
      x.derive_bip44_addresses count = .ok l → l.length = count := by
    intro x count l h
    unfold Xpub.derive_bip44_addresses at h
    split at h
    · exact absurd h (by simp)
    · split at h
      · exact absurd h (by simp)
      · rename_i account ha
        exact deriveAddrLoop_length account count 0 l h
  refine ⟨?_, ?_, hb32, hb44⟩
  · intro x
    rfl
  · intro x l h
    have := hb44 x 0 l h
    exact List.length_eq_zero.mp this

set_option maxRecDepth 1000000 in
/-- Witness for C5 at the repository's test vector: counts 0 and 1. -/
theorem c5_batch_shape_witness :
    testXpub.derive_bip32_addresses 0 = .ok [] ∧
    (∃ l : List String, testXpub.derive_bip44_addresses 0 = .ok l ∧
      l = []) ∧
    (∃ l : List String, testXpub.derive_bip32_addresses 1 = .ok l ∧
      l.length = 1) :=
  ⟨c5_batch_shape.1 testXpub,
   ⟨[], by rfl, c5_batch_shape.2.1 testXpub [] (by rfl)⟩,
   ⟨["1FvSF5syVSTnsbNzFpPd4mNFcSvwtTxqLw"], by rfl,
    c5_batch_shape.2.2.1 testXpub 1 ["1FvSF5syVSTnsbNzFpPd4mNFcSvwtTxqLw"]
      (by rfl)⟩⟩

/-- C6: BIP44-style path semantics.  Whenever
`derive_bip44_addresses(P, N)` succeeds, its `i`-th entry (`i < N`) is
the legacy address rendered from `derive_non_hardened(derive_non_hardened(P, 0), i)`. -/
theorem c6_bip44_path (x : Xpub) (count : Nat) (l : List String) (i : Nat)
    (h : x.derive_bip44_addresses count = .ok l) (hi : i < count) :
    ∃ account child : Xpub,
      x.derive_non_hardened 0 = .ok account ∧
      account.derive_non_hardened i = .ok child ∧
      l.getD i "" = child.to_bitcoin_address := by
  unfold Xpub.derive_bip44_addresses at h
  split at h
  · exact absurd h (by simp)
  · split at h
    · exact absurd h (by simp)
    · rename_i account ha
      obtain ⟨c, hc, hl⟩ := deriveAddrLoop_get account count 0 i l h hi
      exact ⟨account, c, ha, by simpa using hc, hl⟩

set_option maxRecDepth 1000000 in
/-- Witness for C6 at the repository's test vector with count 1. -/
theorem c6_bip44_path_witness :
    ∃ account child : Xpub,
      testXpub.derive_non_hardened 0 = .ok account ∧
      account.derive_non_hardened 0 = .ok child ∧
      ["1AHAs4FzyFxDCqpESgoGur41LE9e5b4Lsm"].getD 0 "" =
        child.to_bitcoin_address :=
  c6_bip44_path testXpub 1 ["1AHAs4FzyFxDCqpESgoGur41LE9e5b4Lsm"] 0
    (by rfl) (by norm_num)

/-! ## Claim C7: the fingerprint -/

/-- C7: `fingerprint` is the first four bytes, read big-endian, of
`RIPEMD160(SHA256(ser(public_key)))`, and it depends on the public key
alone: any two nodes with equal public keys — whatever their depth,
child number, parent fingerprint or chain code — have equal
fingerprints. -/
theorem c7_fingerprint :
    (∀ x : Xpub, x.fingerprint =
      beToNat ((ripemd160 (sha256 x.public_key.serialize)).take 4)) ∧
    (∀ x y : Xpub, x.public_key = y.public_key →
      x.fingerprint = y.fingerprint) := by
  constructor
  · intro x
    rfl
  · intro x y hpk
    unfold Xpub.fingerprint
    rw [hpk]

/-- Witness for C7: two nodes sharing `testXpub`'s public key but
differing in every other field have the same fingerprint. -/
theorem c7_fingerprint_witness :
    testXpub.fingerprint =
      (Xpub.new 77 1234 5678 [9, 9, 9] testXpub.public_key).fingerprint :=
  c7_fingerprint.2 testXpub
    (Xpub.new 77 1234 5678 [9, 9, 9] testXpub.public_key) (by rfl)

/-! ## CashAddr lemmas and claims C9, C10 -/

/-- The inner group-emitting loop, characterized: with fuel at least
`bits` it reduces `bits` below `toB`, emitting one group of at most
`maxv` per `toB` bits consumed. -/
theorem pushGroups_spec (toB maxv : Nat) (htoB : 0 < toB) :
    ∀ (fuel acc bits : Nat), bits ≤ fuel →
      ∃ gs : List Nat,
        CashAddress.pushGroups toB maxv fuel acc bits = (gs, bits % toB) ∧
        gs.length = bits / toB ∧
        ∀ g ∈ gs, g ≤ maxv := by
  intro fuel
  induction fuel with
  | zero =>
    intro acc bits hb
    have : bits = 0 := by omega
    subst this
    exact ⟨[], rfl, by simp, by simp⟩
  | succ f ih =>
    intro acc bits hb
    by_cases h : toB ≤ bits
    · obtain ⟨gs, hpg, hlen, hmem⟩ := ih acc (bits - toB) (by omega)
      refine ⟨((acc >>> (bits - toB)) &&& maxv) :: gs, ?_, ?_, ?_⟩
      · show (if toB ≤ bits then _ else _) = _
        rw [if_pos h]
        simp only [hpg, ← Nat.mod_eq_sub_mod h]
      · simp only [List.length_cons, hlen]
        rw [Nat.div_eq_sub_div htoB h]
      · intro g hg
        rcases List.mem_cons.mp hg with rfl | hg
        · exact Nat.and_le_right
        · exact hmem g hg
    · refine ⟨[], ?_, ?_, by simp⟩
      · show (if toB ≤ bits then _ else _) = _
        rw [if_neg h, Nat.mod_eq_of_lt (by omega)]
      · rw [Nat.div_eq_of_lt (show bits < toB by omega)]
        rfl

/-- The outer loop of `convert_bits`, characterized on in-range input:
it never fails, and emits one group of at most `maxv` per `toB` bits
read, leaving fewer than `toB` bits pending. -/
theorem cbFold_spec (fromB toB maxv : Nat) (htoB : 0 < toB) :
    ∀ (data : List Nat) (acc bits : Nat),
      (∀ v ∈ data, v < 2 ^ fromB) → bits < toB →
      ∃ (gs : List Nat) (accf bitsf : Nat),
        CashAddress.cbFold fromB toB maxv data acc bits =
          .ok (gs, accf, bitsf) ∧
        gs.length * toB + bitsf = bits + fromB * data.length ∧
        bitsf < toB ∧
        ∀ g ∈ gs, g ≤ maxv := by
  intro data
  induction data with
  | nil =>
    intro acc bits _ hbits
    exact ⟨[], acc, bits, rfl, by simp, hbits, by simp⟩
  | cons v rest ih =>
    intro acc bits hin hbits
    have hv : v < 2 ^ fromB := hin v (by simp)
    obtain ⟨gs1, hpg, hlen1, hmem1⟩ :=
      pushGroups_spec toB maxv htoB (bits + fromB)
        (((acc <<< fromB) % 2 ^ 64) ||| v) (bits + fromB) (by omega)
    obtain ⟨gs2, accf, bitsf, hrec, hlen2, hbf, hmem2⟩ :=
      ih (((acc <<< fromB) % 2 ^ 64) ||| v) ((bits + fromB) % toB)
        (fun x hx => hin x (by simp [hx])) (Nat.mod_lt _ htoB)
    refine ⟨gs1 ++ gs2, accf, bitsf, ?_, ?_, hbf, ?_⟩
    · show (if 2 ^ fromB ≤ v then _ else _) = _
      rw [if_neg (by omega)]
      simp only [hpg]
      rw [hrec]
    · simp only [List.length_append, List.length_cons]
      calc (gs1.length + gs2.length) * toB + bitsf
          = gs1.length * toB + (gs2.length * toB + bitsf) := by ring
        _ = gs1.length * toB + ((bits + fromB) % toB + fromB * rest.length) := by
            rw [hlen2]
        _ = bits + fromB * (rest.length + 1) := by
            rw [hlen1, Nat.mul_succ]
            have hdm2 : (bits + fromB) / toB * toB + (bits + fromB) % toB =
                bits + fromB := Nat.div_add_mod' _ _
            omega
        _ = bits + fromB * (v :: rest).length := by simp
    · intro g hg
      rcases List.mem_append.mp hg with hg | hg
      · exact hmem1 g hg
      · exact hmem2 g hg

/-- Model of `convert_bits` on byte input with `from = 8`, `to = 5`, `pad = true`
succeeds and emits `⌈8·len/5⌉` groups below 32. -/
theorem convert_bits_8_5 (data : List Nat) (h : ByteList data) :
    ∃ gs : List Nat,
      CashAddress.convert_bits data 8 5 true = .ok gs ∧
      gs.length = (8 * data.length + 4) / 5 ∧
      ∀ g ∈ gs, g < 32 := by
  obtain ⟨gs, accf, bitsf, hfold, hlen, hbf, hmem⟩ :=
    cbFold_spec 8 5 31 (by norm_num) data 0 0 (fun v hv => h v hv)
      (by norm_num)
  unfold CashAddress.convert_bits
  rw [if_neg (by norm_num)]
  have h31 : (2 : Nat) ^ 5 - 1 = 31 := by norm_num
  rw [h31]
  simp only [hfold]
  by_cases hb : 0 < bitsf
  · refine ⟨gs ++ [(accf <<< (5 - bitsf)) &&& 31], ?_, ?_, ?_⟩
    · rw [if_pos (by exact ⟨by trivial, hb⟩)]
    · simp only [List.length_append, List.length_singleton]
      omega
    · intro g hg
      rcases List.mem_append.mp hg with hg | hg
      · exact Nat.lt_succ_of_le (hmem g hg)
      · rcases List.mem_singleton.mp hg with rfl
        exact Nat.lt_succ_of_le Nat.and_le_right
  · refine ⟨gs, ?_, by omega, fun g hg => Nat.lt_succ_of_le (hmem g hg)⟩
    rw [if_neg (fun hc => hb hc.2)]

/-- Model of `build_payload` on a 20-byte hash: exactly 34 groups, all below 32. -/
theorem build_payload_spec (hash : List Nat) (h : ByteList hash)
    (hlen : hash.length = 20) :
    (CashAddress.build_payload hash).length = 34 ∧
    ∀ g ∈ CashAddress.build_payload hash, g < 32 := by
  obtain ⟨gs, hcb, hglen, hgmem⟩ := convert_bits_8_5 (0x00 :: hash)
    (by intro x hx; rcases List.mem_cons.mp hx with rfl | hx
        · norm_num
        · exact h x hx)
  unfold CashAddress.build_payload
  rw [hcb]
  refine ⟨?_, hgmem⟩
  rw [hglen]
  simp [hlen]

/-- Model of `compute_checksum`: exactly eight groups, all below 32. -/
theorem compute_checksum_spec (payload : List Nat) :
    (CashAddress.compute_checksum payload).length = 8 ∧
    ∀ g ∈ CashAddress.compute_checksum payload, g < 32 := by
  constructor
  · simp [CashAddress.compute_checksum]
  · intro g hg
    simp only [CashAddress.compute_checksum, List.mem_map] at hg
    obtain ⟨i, -, rfl⟩ := hg
    exact Nat.lt_succ_of_le Nat.and_le_right

/-- The no-prefix rendering, written out: charset-encode the 5-bit
payload of the HASH160 followed by its checksum. -/
theorem from_pubkey_cashaddr_eq (pubkey : List Nat) :
    CashAddress.from_pubkey pubkey AddressFormat.CashAddr =
      CashAddress.encode_payload
        (CashAddress.build_payload (ripemd160 (sha256 pubkey)))
        (CashAddress.compute_checksum
          (CashAddress.build_payload (ripemd160 (sha256 pubkey)))) := by
  rfl

/-- Every character `encode_payload` emits for in-range groups is drawn
from the charset. -/
theorem encode_payload_chars (payload checksum : List Nat)
    (hp : ∀ g ∈ payload, g < 32) (hcs : ∀ g ∈ checksum, g < 32) :
    ∀ c ∈ (CashAddress.encode_payload payload checksum).toList,
      c ∈ cashaddrCharset := by
  intro c hc
  unfold CashAddress.encode_payload at hc
  simp only [String.toList] at hc
  obtain ⟨b, hbmem, rfl⟩ := List.mem_map.mp hc
  have hb : b < 32 := by
    rcases List.mem_append.mp hbmem with hb | hb
    · exact hp b hb
    · exact hcs b hb
  have hblen : b < cashaddrCharset.length := by
    simpa [cashaddrCharset] using hb
  rw [List.getD_eq_getElem _ _ hblen]
  exact List.getElem_mem hblen

/-- Model of `encode_payload` emits one character per group. -/
theorem encode_payload_length (payload checksum : List Nat) :
    (CashAddress.encode_payload payload checksum).length =
      payload.length + checksum.length := by
  unfold CashAddress.encode_payload
  simp [String.length]

/-- C9: the CashAddr-with-prefix rendering is the string
`"bitcoincash:"` followed, character for character, by the no-prefix
rendering of the same public key, and every character of that remainder
is drawn from the 32-character CashAddr charset. -/
theorem c9_cashaddr_format (pubkey : List Nat) :
    CashAddress.from_pubkey pubkey AddressFormat.CashAddrWithHrp =
      "bitcoincash:" ++ CashAddress.from_pubkey pubkey AddressFormat.CashAddr ∧
    ∀ c ∈ (CashAddress.from_pubkey pubkey AddressFormat.CashAddr).toList,
      c ∈ cashaddrCharset := by
  constructor
  · rfl
  · rw [from_pubkey_cashaddr_eq]
    have hhash := ripemd160_byteList (sha256 pubkey)
    have hhlen := ripemd160_length (sha256 pubkey)
    obtain ⟨-, hpmem⟩ := build_payload_spec _ hhash hhlen
    obtain ⟨-, hcmem⟩ :=
      compute_checksum_spec (CashAddress.build_payload
        (ripemd160 (sha256 pubkey)))
    exact encode_payload_chars _ _ hpmem hcmem

set_option maxRecDepth 1000000 in
/-- Witness for C9 at the serialized test public key. -/
theorem c9_cashaddr_format_witness :
    CashAddress.from_pubkey testXpub.public_key.serialize
        AddressFormat.CashAddrWithHrp =
      "bitcoincash:" ++
        CashAddress.from_pubkey testXpub.public_key.serialize
          AddressFormat.CashAddr ∧
    'q' ∈ cashaddrCharset :=
  ⟨(c9_cashaddr_format testXpub.public_key.serialize).1,
   (c9_cashaddr_format testXpub.public_key.serialize).2 'q' (by decide)⟩

/-- C10: the no-prefix CashAddr rendering is exactly 42 characters: a
21-byte payload (type byte `0x00` plus the 20-byte HASH160) regroups
into exactly 34 five-bit groups, the checksum adds exactly 8 more, and
every group value is below 32, so the charset lookup never goes out of
bounds. -/
theorem c10_cashaddr_shape (pubkey : List Nat) :
    (0x00 :: ripemd160 (sha256 pubkey)).length = 21 ∧
    (CashAddress.build_payload (ripemd160 (sha256 pubkey))).length = 34 ∧
    (∀ g ∈ CashAddress.build_payload (ripemd160 (sha256 pubkey)), g < 32) ∧
    (CashAddress.compute_checksum (CashAddress.build_payload
      (ripemd160 (sha256 pubkey)))).length = 8 ∧
    (∀ g ∈ CashAddress.compute_checksum (CashAddress.build_payload
      (ripemd160 (sha256 pubkey))), g < 32) ∧
    (CashAddress.from_pubkey pubkey AddressFormat.CashAddr).length = 42 := by
  have hhash := ripemd160_byteList (sha256 pubkey)
  have hhlen := ripemd160_length (sha256 pubkey)
  obtain ⟨hplen, hpmem⟩ := build_payload_spec _ hhash hhlen
  obtain ⟨hclen, hcmem⟩ :=
    compute_checksum_spec (CashAddress.build_payload
      (ripemd160 (sha256 pubkey)))
  refine ⟨by simp [hhlen], hplen, hpmem, hclen, hcmem, ?_⟩
  rw [from_pubkey_cashaddr_eq, encode_payload_length, hplen, hclen]

set_option maxRecDepth 1000000 in
/-- Witness for C10 at the serialized test public key, with the group
value 0 (the type-byte group) checked against the bound. -/
theorem c10_cashaddr_shape_witness :
    (0x00 :: ripemd160 (sha256 testXpub.public_key.serialize)).length = 21 ∧
    (CashAddress.from_pubkey testXpub.public_key.serialize
      AddressFormat.CashAddr).length = 42 ∧
    (0 : Nat) < 32 :=
  ⟨(c10_cashaddr_shape testXpub.public_key.serialize).1,
   (c10_cashaddr_shape testXpub.public_key.serialize).2.2.2.2.2,
   (c10_cashaddr_shape testXpub.public_key.serialize).2.2.1 0 (by decide)⟩

/-! ## Base58 codec lemmas (toward claims C3 and C4) -/

theorem digitsLE_lt (b : Nat) (hb : 0 < b) :
    ∀ (f n : Nat), ∀ d ∈ digitsLE b f n, d < b := by
  intro f
  induction f with
  | zero => intro n d hd; simp [digitsLE] at hd
  | succ f ih =>
    intro n d hd
    by_cases hn : n = 0
    · subst hn; simp [digitsLE] at hd
    · have : digitsLE b (f + 1) n = n % b :: digitsLE b f (n / b) := by
        show (if n = 0 then [] else _) = _
        rw [if_neg hn]
      rw [this] at hd
      rcases List.mem_cons.mp hd with rfl | hd
      · exact Nat.mod_lt _ hb
      · exact ih (n / b) d hd

theorem beToNat_replicate_zero (n : Nat) : beToNat (List.replicate n 0) = 0 := by
  induction n with
  | zero => rfl
  | succ n ih =>
    rw [List.replicate_succ, beToNat_cons, ih]
    simp

theorem ofDigits_replicate_zero (b n : Nat) :
    Nat.ofDigits b (List.replicate n 0) = 0 := by
  induction n with
  | zero => rfl
  | succ n ih =>
    rw [List.replicate_succ, Nat.ofDigits_cons, ih]
    simp

/-- The big-number fold of Base58/Base256 parsing computes `ofDigits` of
the reversed digit string. -/
theorem foldl_base_eq_ofDigits (B : Nat) (l : List Nat) :
    l.foldl (fun a d => a * B + d) 0 = Nat.ofDigits B l.reverse := by
  have key : ∀ (l : List Nat) (a : Nat),
      l.foldl (fun a d => a * B + d) a =
        Nat.ofDigits B l.reverse + a * B ^ l.length := by
    intro l
    induction l with
    | nil => intro a; simp
    | cons d t ih =>
      intro a
      show t.foldl _ (a * B + d) = _
      rw [ih (a * B + d)]
      have : Nat.ofDigits B (d :: t).reverse =
          Nat.ofDigits B t.reverse + d * B ^ t.length := by
        rw [List.reverse_cons, Nat.ofDigits_append]
        simp [Nat.ofDigits_cons, List.length_reverse]
        ring
      rw [this]
      simp [List.length_cons, pow_succ]
      ring
  rw [key l 0]
  simp

theorem beToNat_eq_ofDigits (l : List Nat) :
    beToNat l = Nat.ofDigits 256 l.reverse := foldl_base_eq_ofDigits 256 l

theorem charIndex_lt (l : List Char) (c : Char) (v : Nat)
    (h : charIndex l c = some v) : v < l.length := by
  induction l generalizing v with
  | nil => simp [charIndex] at h
  | cons a t ih =>
    unfold charIndex at h
    split at h
    · obtain ⟨rfl⟩ := Option.some.inj h
      simp
    · rcases Option.map_eq_some'.mp h with ⟨w, hw, rfl⟩
      have := ih w hw
      simp only [List.length_cons]
      omega

theorem charIndex_getD (l : List Char) (c : Char) (v : Nat) (d : Char)
    (h : charIndex l c = some v) : l.getD v d = c := by
  induction l generalizing v with
  | nil => simp [charIndex] at h
  | cons a t ih =>
    unfold charIndex at h
    split at h
    · rename_i hca
      obtain ⟨rfl⟩ := Option.some.inj h
      simpa using hca.symm
    · rcases Option.map_eq_some'.mp h with ⟨w, hw, rfl⟩
      simpa using ih w hw

theorem b58Val_lt (c : Char) (v : Nat) (h : b58Val c = some v) : v < 58 := by
  have := charIndex_lt b58Chars c v h
  simpa [b58Chars] using this

theorem b58Char_b58Val (c : Char) (v : Nat) (h : b58Val c = some v) :
    b58Char v = c := charIndex_getD b58Chars c v '1' h

theorem b58Val_b58Char (v : Nat) (hv : v < 58) : b58Val (b58Char v) = some v := by
  revert hv
  revert v
  decide

theorem b58Val_eq_zero (c : Char) (v : Nat) (h : b58Val c = some v) :
    v = 0 ↔ c = '1' := by
  constructor
  · intro hv
    subst hv
    have := b58Char_b58Val c 0 h
    simpa [b58Char, b58Chars] using this.symm
  · intro hc
    subst hc
    have : b58Val '1' = some 0 := by decide
    rw [this] at h
    exact (Option.some.inj h).symm

/-- Base58 decoding yields byte values. -/
theorem b58Decode_byteList (s : String) (b : List Nat)
    (h : b58Decode s = some b) : ByteList b := by
  unfold b58Decode at h
  split at h
  · obtain ⟨rfl⟩ := Option.some.inj h
    intro x hx
    rcases List.mem_append.mp hx with hx | hx
    · have := List.eq_of_mem_replicate hx
      omega
    · exact digitsLE_lt 256 (by norm_num) 700 _ x (List.mem_reverse.mp hx)
  · exact absurd h (by simp)

theorem takeWhile_replicate_append {α} (p : α → Bool) (a : α)
    (ha : p a = true) (z : Nat) (rest : List α) :
    (List.replicate z a ++ rest).takeWhile p =
      List.replicate z a ++ rest.takeWhile p := by
  induction z with
  | zero => simp
  | succ z ih => simp [List.replicate_succ, List.takeWhile_cons_of_pos ha, ih]

/-- Splitting a byte list at its leading zeros. -/
theorem leading_zeros_split (b : List Nat) :
    b.takeWhile (· = 0) =
      List.replicate (b.takeWhile (· = 0)).length 0 ∧
    List.replicate (b.takeWhile (· = 0)).length 0 ++ b.dropWhile (· = 0) = b := by
  have h1 : b.takeWhile (· = 0) =
      List.replicate (b.takeWhile (· = 0)).length 0 := by
    rw [List.eq_replicate_iff]
    refine ⟨rfl, fun x hx => ?_⟩
    exact of_decide_eq_true
      (List.mem_takeWhile_imp (p := fun x => decide (x = 0)) hx)
  exact ⟨h1, by rw [← h1]; exact List.takeWhile_append_dropWhile _ b⟩

theorem dropWhile_head_false {α} (p : α → Bool) (l : List α) (h0 : α)
    (t' : List α) (h : l.dropWhile p = h0 :: t') : p h0 = false := by
  induction l with
  | nil => simp at h
  | cons a l ih =>
    by_cases hpa : p a = true
    · rw [List.dropWhile_cons_of_pos hpa] at h
      exact ih h
    · rw [List.dropWhile_cons_of_neg (by simpa using hpa)] at h
      obtain ⟨rfl, -⟩ := List.cons.inj h
      simpa using hpa

theorem getLast_of_reverse_cons {α} (l : List α) (a : α) (r : List α)
    (h : l.reverse = a :: r) :
    ∀ hne : l ≠ [], l.getLast hne = a := by
  intro hne
  have h1 : l = r.reverse ++ [a] := by
    have := congrArg List.reverse h
    simpa using this
  have h2 := List.getLast?_eq_getLast l hne
  have h3 : l.getLast? = some a := by
    rw [h1]
    exact List.getLast?_concat _
  rw [h2] at h3
  exact Option.some.inj h3

/-- Base58-decoding an encoded byte list (of bounded length) recovers it.
This is the round trip underlying `to_base58` / `from_base58`. -/
theorem b58Decode_b58Encode (b : List Nat) (hb : ByteList b)
    (hlen : b.length ≤ 500) : b58Decode (b58Encode b) = some b := by
  obtain ⟨htw, hsplit⟩ := leading_zeros_split b
  set z := (b.takeWhile (· = 0)).length with hzdef
  set t := b.dropWhile (· = 0) with htdef
  have hbt : ByteList t := fun x hx => hb x (by rw [← hsplit]; simp [hx])
  have hvt : beToNat b = beToNat t := by
    conv_lhs => rw [← hsplit]
    rw [beToNat_append, beToNat_replicate_zero]
    simp
  have hvlt : beToNat b < 256 ^ 700 := by
    calc beToNat b < 256 ^ b.length := beToNat_lt b hb
      _ ≤ 256 ^ 700 := Nat.pow_le_pow_right (by norm_num) (by omega)
  have hv58 : beToNat b < 58 ^ 700 := by
    calc beToNat b < 256 ^ b.length := beToNat_lt b hb
      _ ≤ 256 ^ 500 := Nat.pow_le_pow_right (by norm_num) hlen
      _ = (256 ^ 5) ^ 100 := by rw [← pow_mul]
      _ < (58 ^ 7) ^ 100 := Nat.pow_lt_pow_left (by norm_num) (by norm_num)
      _ = 58 ^ 700 := by rw [← pow_mul]
  have hdigits58 : digitsLE 58 700 (beToNat b) = Nat.digits 58 (beToNat b) :=
    digitsLE_eq_digits 58 700 _ (by norm_num) hv58
  have hdiglt : ∀ d ∈ Nat.digits 58 (beToNat b), d < 58 :=
    fun d hd => Nat.digits_lt_base (by norm_num) hd
  have hchars : (b58Encode b).toList = List.replicate z '1' ++
      (Nat.digits 58 (beToNat b)).reverse.map b58Char := by
    unfold b58Encode
    rw [hdigits58]
    rfl
  have hall : ∀ c ∈ (b58Encode b).toList, (b58Val c).isSome = true := by
    rw [hchars]
    intro c hc
    rcases List.mem_append.mp hc with hc | hc
    · rw [List.eq_of_mem_replicate hc]
      decide
    · obtain ⟨d, hd, rfl⟩ := List.mem_map.mp hc
      rw [b58Val_b58Char d (hdiglt d (List.mem_reverse.mp hd))]
      rfl
  have hfold : (b58Encode b).toList.foldl
      (fun a c => a * 58 + (b58Val c).getD 0) 0 = beToNat b := by
    rw [hchars]
    have hm : (List.replicate z '1' ++
        (Nat.digits 58 (beToNat b)).reverse.map b58Char).map
        (fun c => (b58Val c).getD 0) =
        List.replicate z 0 ++ (Nat.digits 58 (beToNat b)).reverse := by
      rw [List.map_append, List.map_replicate, List.map_map]
      have h1 : ((b58Val '1').getD 0) = 0 := by decide
      rw [h1]
      congr 1
      have hcong : ∀ d ∈ (Nat.digits 58 (beToNat b)).reverse,
          ((fun c => (b58Val c).getD 0) ∘ b58Char) d = id d := by
        intro d hd
        have hv : b58Val (b58Char d) = some d :=
          b58Val_b58Char d (hdiglt d (List.mem_reverse.mp hd))
        simp [Function.comp, hv]
      rw [List.map_congr_left hcong, List.map_id]
    calc (List.replicate z '1' ++
          (Nat.digits 58 (beToNat b)).reverse.map b58Char).foldl
          (fun a c => a * 58 + (b58Val c).getD 0) 0
        = ((List.replicate z '1' ++
            (Nat.digits 58 (beToNat b)).reverse.map b58Char).map
            (fun c => (b58Val c).getD 0)).foldl (fun a d => a * 58 + d) 0 :=
          (List.foldl_map _ _ _ _).symm
      _ = beToNat b := by
          rw [hm, foldl_base_eq_ofDigits, List.reverse_append,
            List.reverse_reverse, List.reverse_replicate, Nat.ofDigits_append,
            Nat.ofDigits_digits, ofDigits_replicate_zero]
          simp
  have hones : ((b58Encode b).toList.takeWhile (· = '1')).length = z := by
    rw [hchars, takeWhile_replicate_append _ _ (by decide)]
    have htail : ((Nat.digits 58 (beToNat b)).reverse.map b58Char).takeWhile
        (· = '1') = [] := by
      cases ht0 : (Nat.digits 58 (beToNat b)).reverse with
      | nil => simp
      | cons dl rev' =>
        have hdl : dl ∈ Nat.digits 58 (beToNat b) :=
          List.mem_reverse.mp (by rw [ht0]; simp)
        have hdl58 : dl < 58 := hdiglt dl hdl
        have hne : Nat.digits 58 (beToNat b) ≠ [] := by
          intro hnil
          rw [hnil] at ht0
          simp at ht0
        have hv0 : beToNat b ≠ 0 := Nat.digits_ne_nil_iff_ne_zero.mp hne
        have hdlast : dl ≠ 0 := by
          have hgl := Nat.getLast_digit_ne_zero 58 hv0
          rwa [getLast_of_reverse_cons _ dl rev' ht0] at hgl
        have hne1 : b58Char dl ≠ '1' := by
          intro heq
          exact hdlast ((b58Val_eq_zero (b58Char dl) dl
            (b58Val_b58Char dl hdl58)).mpr heq)
        rw [List.map_cons, List.takeWhile_cons_of_neg (by simpa using hne1)]
    rw [htail]
    simp
  unfold b58Decode
  rw [if_pos (List.all_eq_true.mpr hall)]
  simp only []
  rw [hfold, hones]
  congr 1
  rw [digitsLE_eq_digits 256 700 _ (by norm_num) hvlt, hvt]
  cases htc : t with
  | nil =>
    rw [htc] at hsplit
    show List.replicate z 0 ++ (Nat.digits 256 (beToNat [])).reverse = b
    have h0 : beToNat ([] : List Nat) = 0 := rfl
    rw [h0, Nat.digits_zero]
    simpa using hsplit
  | cons h0 t' =>
    rw [htc] at hsplit hbt
    have hh0 : h0 ≠ 0 := by
      have := dropWhile_head_false (fun x => decide (x = 0)) b h0 t'
        (by rw [← htdef, htc])
      simpa using this
    have hrev : beToNat (h0 :: t') = Nat.ofDigits 256 (h0 :: t').reverse :=
      beToNat_eq_ofDigits _
    rw [hrev, Nat.digits_ofDigits 256 (by norm_num) _
      (fun x hx => hbt x (List.mem_reverse.mp hx))
      (by
        intro hne2
        rw [getLast_of_reverse_cons (h0 :: t').reverse h0 t' (by simp)]
        exact hh0)]
    rw [List.reverse_reverse]
    exact hsplit

/-- Base58-encoding a decoded string (of bounded byte length) recovers
the string, character for character. -/
theorem b58Encode_b58Decode (s : String) (b : List Nat)
    (h : b58Decode s = some b) (hblen : b.length ≤ 500) : b58Encode b = s := by
  have hbbytes : ByteList b := b58Decode_byteList s b h
  unfold b58Decode at h
  split at h
  case isFalse => exact absurd h (by simp)
  rename_i hallb
  simp only [] at h
  have hb := (Option.some.inj h).symm
  clear h
  have hval : ∀ c ∈ s.toList, (b58Val c).isSome = true :=
    List.all_eq_true.mp hallb
  have hsplit : s.toList.takeWhile (· = '1') ++ s.toList.dropWhile (· = '1') =
      s.toList := List.takeWhile_append_dropWhile _ _
  have honesrep : s.toList.takeWhile (· = '1') =
      List.replicate (s.toList.takeWhile (· = '1')).length '1' := by
    rw [List.eq_replicate_iff]
    refine ⟨rfl, fun x hx => ?_⟩
    exact of_decide_eq_true
      (List.mem_takeWhile_imp (p := fun c => decide (c = '1')) hx)
  set k := (s.toList.takeWhile (· = '1')).length with hkdef
  set rest := s.toList.dropWhile (· = '1') with hrestdef
  have hrestval : ∀ c ∈ rest, (b58Val c).isSome = true := by
    intro c hc
    exact hval c (by rw [← hsplit]; exact List.mem_append_right _ hc)
  have hrest58 : ∀ d ∈ rest.map (fun c => (b58Val c).getD 0), d < 58 := by
    intro d hd
    obtain ⟨c, hc, rfl⟩ := List.mem_map.mp hd
    obtain ⟨w, hw⟩ := Option.isSome_iff_exists.mp (hrestval c hc)
    rw [hw]
    exact b58Val_lt c w hw
  -- the folded value reads the digits of `rest`
  have hv : s.toList.foldl (fun a c => a * 58 + (b58Val c).getD 0) 0 =
      Nat.ofDigits 58 (rest.map (fun c => (b58Val c).getD 0)).reverse := by
    calc s.toList.foldl (fun a c => a * 58 + (b58Val c).getD 0) 0
        = (s.toList.map (fun c => (b58Val c).getD 0)).foldl
            (fun a d => a * 58 + d) 0 := (List.foldl_map _ _ _ _).symm
      _ = Nat.ofDigits 58
            (s.toList.map (fun c => (b58Val c).getD 0)).reverse :=
          foldl_base_eq_ofDigits _ _
      _ = Nat.ofDigits 58 (rest.map (fun c => (b58Val c).getD 0)).reverse := by
          conv_lhs => rw [← hsplit]
          rw [List.map_append, List.reverse_append, Nat.ofDigits_append]
          conv_lhs => rw [honesrep]
          rw [List.map_replicate]
          have h1 : ((b58Val '1').getD 0) = 0 := by decide
          rw [h1, List.reverse_replicate, ofDigits_replicate_zero]
          simp
  set v := s.toList.foldl (fun a c => a * 58 + (b58Val c).getD 0) 0 with hvdef
  -- split on whether any significant characters remain
  cases hr : rest with
  | nil =>
    have hv0 : v = 0 := by rw [hv, hr]; rfl
    have hb0 : b = List.replicate k 0 := by
      rw [hb, hv0]
      simp [digitsLE]
    rw [hb0]
    unfold b58Encode
    have htw : (List.replicate k (0 : Nat)).takeWhile (· = 0) =
        List.replicate k 0 := by
      have := takeWhile_replicate_append (fun x : Nat => decide (x = 0)) 0
        (by decide) k []
      simpa using this
    rw [htw, beToNat_replicate_zero]
    show String.mk (List.replicate (List.replicate k (0 : Nat)).length '1' ++
      (List.map b58Char (digitsLE 58 700 0).reverse)) = s
    rw [List.length_replicate]
    have hd0 : digitsLE 58 700 0 = [] := rfl
    rw [hd0]
    have hs1 : s.toList = List.replicate k '1' := by
      rw [← hsplit, hr, ← honesrep]
      simp
    cases s with
    | mk data =>
      show String.mk (List.replicate k '1' ++ []) = String.mk data
      rw [List.append_nil, ← hs1]
      rfl
  | cons c0 rest' =>
    have hc0 : c0 ≠ '1' := by
      have := dropWhile_head_false (fun c => decide (c = '1')) s.toList c0
        rest' (by rw [← hrestdef, hr])
      simpa using this
    have hc0mem : c0 ∈ rest := by rw [hr]; simp
    obtain ⟨d0, hd0⟩ := Option.isSome_iff_exists.mp (hrestval c0 hc0mem)
    have hd0ne : d0 ≠ 0 := fun h0 =>
      hc0 ((b58Val_eq_zero c0 d0 hd0).mp h0)
    -- the digits of v are the digit values of `rest`, reversed
    have hdig : Nat.digits 58 v =
        (rest.map (fun c => (b58Val c).getD 0)).reverse := by
      rw [hv]
      refine Nat.digits_ofDigits 58 (by norm_num) _
        (fun d hd => hrest58 d (List.mem_reverse.mp hd)) ?_
      intro hne
      rw [getLast_of_reverse_cons _ ((b58Val c0).getD 0)
        (rest'.map (fun c => (b58Val c).getD 0)) (by rw [hr]; simp)]
      rw [hd0]
      simpa using hd0ne
    have hvne : v ≠ 0 := by
      intro h0
      have := hdig
      rw [h0, Nat.digits_zero] at this
      rw [hr] at this
      simp at this
    -- the decoded bytes: leading zeros then the value's base-256 digits
    have hlenR : (digitsLE 256 700 v).length < 700 := by
      have : (digitsLE 256 700 v).reverse.length ≤ b.length := by
        rw [hb]
        simp
      simp only [List.length_reverse] at this
      omega
    have hsound : digitsLE 256 700 v = Nat.digits 256 v :=
      digitsLE_sound 256 700 v (by norm_num) hlenR
    have hbR : b = List.replicate k 0 ++ (Nat.digits 256 v).reverse := by
      rw [hb, hsound]
    -- head of the base-256 digit block is nonzero
    have hdigne : Nat.digits 256 v ≠ [] := Nat.digits_ne_nil_iff_ne_zero.mpr hvne
    obtain ⟨rh, R', hR⟩ := List.exists_cons_of_ne_nil
      (fun hnil : (Nat.digits 256 v).reverse = [] =>
        hdigne (by simpa using congrArg List.reverse hnil))
    have hrhne : rh ≠ 0 := by
      have hgl := Nat.getLast_digit_ne_zero 256 hvne
      rwa [getLast_of_reverse_cons _ rh R' hR] at hgl
    -- now compute the encoding
    unfold b58Encode
    have htwb : b.takeWhile (· = 0) = List.replicate k 0 := by
      rw [hbR, takeWhile_replicate_append _ _ (by decide), hR,
        List.takeWhile_cons_of_neg (by simpa using hrhne)]
      simp
    have hbv : beToNat b = v := by
      rw [hbR, beToNat_append, beToNat_replicate_zero, beToNat_eq_ofDigits,
        List.reverse_reverse, Nat.ofDigits_digits]
      simp
    have hv58 : beToNat b < 58 ^ 700 := by
      calc beToNat b < 256 ^ b.length := beToNat_lt b hbbytes
        _ ≤ 256 ^ 500 := Nat.pow_le_pow_right (by norm_num) hblen
        _ = (256 ^ 5) ^ 100 := by rw [← pow_mul]
        _ < (58 ^ 7) ^ 100 := Nat.pow_lt_pow_left (by norm_num) (by norm_num)
        _ = 58 ^ 700 := by rw [← pow_mul]
    have hd58 : digitsLE 58 700 (beToNat b) = Nat.digits 58 v := by
      rw [digitsLE_eq_digits 58 700 _ (by norm_num) hv58, hbv]
    rw [htwb, hd58, hdig]
    have hchars : List.map b58Char
        ((rest.map (fun c => (b58Val c).getD 0)).reverse).reverse = rest := by
      rw [List.reverse_reverse, List.map_map]
      have hcong : ∀ c ∈ rest,
          (b58Char ∘ fun c => (b58Val c).getD 0) c = id c := by
        intro c hc
        obtain ⟨w, hw⟩ := Option.isSome_iff_exists.mp (hrestval c hc)
        have : b58Char w = c := b58Char_b58Val c w hw
        simp [Function.comp, hw, this]
      rw [List.map_congr_left hcong, List.map_id]
    rw [hchars]
    have hfinal : List.replicate k '1' ++ rest = s.toList := by
      rw [← honesrep, hsplit]
    cases s with
    | mk data =>
      show String.mk (List.replicate (List.replicate k 0).length '1' ++ rest) =
        String.mk data
      rw [List.length_replicate, hfinal]
      rfl

/-! ## Public-key codec lemmas (toward claim C4) -/

theorem modpowAux_lt (m : Nat) (hm : 0 < m) :
    ∀ (f b e : Nat), modpowAux f b e m < m := by
  intro f
  induction f with
  | zero =>
    intro b e
    exact Nat.mod_lt _ hm
  | succ f ih =>
    intro b e
    show (if e = 0 then 1 % m
      else if e % 2 = 1 then modpowAux f (b * b % m) (e / 2) m * b % m
      else modpowAux f (b * b % m) (e / 2) m) < m
    split
    · exact Nat.mod_lt _ hm
    · split
      · exact Nat.mod_lt _ hm
      · exact ih _ _

theorem fsqrt_lt (a : Nat) : fsqrt a < secpP := by
  have hpos : 0 < secpP := by decide
  exact modpowAux_lt secpP hpos 260 (a % secpP) ((secpP + 1) / 4)

/-- Characterization of a successful compressed-point parse. -/
theorem from_slice_ok {l : List Nat} {pk : PublicKey}
    (h : PublicKey.from_slice l = .ok pk) :
    l.length = 33 ∧
    (l.getD 0 0 = 2 ∨ l.getD 0 0 = 3) ∧
    pk.x = beToNat (l.drop 1) ∧
    pk.x < secpP ∧
    (pk.y = fsqrt ((pk.x * pk.x % secpP * pk.x + 7) % secpP) ∨
     pk.y = (secpP - fsqrt ((pk.x * pk.x % secpP * pk.x + 7) % secpP)) % secpP) ∧
    pk.y * pk.y % secpP = (pk.x * pk.x % secpP * pk.x + 7) % secpP ∧
    pk.y % 2 = l.getD 0 0 % 2 := by
  unfold PublicKey.from_slice at h
  split at h
  · exact absurd h (by simp)
  · rename_i hlen
    simp only [] at h
    split at h
    · exact absurd h (by simp)
    · rename_i hpre
      split at h
      · exact absurd h (by simp)
      · rename_i hx
        split at h
        · rename_i hym
          split at h
          · rename_i hcond
            obtain ⟨rfl⟩ := Except.ok.inj h
            exact ⟨by omega, by omega, rfl,
              (show beToNat (l.drop 1) < secpP by omega), Or.inl rfl,
              hcond.1, hcond.2⟩
          · exact absurd h (by simp)
        · rename_i hym
          split at h
          · rename_i hcond
            obtain ⟨rfl⟩ := Except.ok.inj h
            exact ⟨by omega, by omega, rfl,
              (show beToNat (l.drop 1) < secpP by omega), Or.inr rfl,
              hcond.1, hcond.2⟩
          · exact absurd h (by simp)

/-- Serializing a parsed compressed point reproduces the input bytes. -/
theorem serialize_from_slice {l : List Nat} {pk : PublicKey}
    (h : PublicKey.from_slice l = .ok pk) (hlb : ByteList l) :
    pk.serialize = l := by
  obtain ⟨hlen, hpre, hx, -, -, -, hpar⟩ := from_slice_ok h
  cases l with
  | nil => simp at hlen
  | cons pre tail =>
    have htail : tail.length = 32 := by simpa using hlen
    have hgd : (pre :: tail).getD 0 0 = pre := rfl
    rw [hgd] at hpre hpar
    have hdrop : (pre :: tail).drop 1 = tail := rfl
    rw [hdrop] at hx
    unfold PublicKey.serialize
    have hbytes : beBytesFixed 32 pk.x = tail := by
      rw [hx, ← htail]
      exact beBytesFixed_beToNat tail (fun x hx' => hlb x (by simp [hx']))
    rw [hbytes]
    rcases hpre with rfl | rfl
    · have : pk.y % 2 = 0 := by omega
      rw [if_pos this]
    · have : ¬(pk.y % 2 = 0) := by omega
      rw [if_neg this]

/-- Parsing a parsed point's serialization succeeds and returns the same
point.  (This needs no primality argument: the square root the second
parse computes is bit-identical to the first one's.) -/
theorem from_slice_serialize {l : List Nat} {pk : PublicKey}
    (h : PublicKey.from_slice l = .ok pk) :
    PublicKey.from_slice pk.serialize = .ok pk := by
  obtain ⟨-, -, -, hxlt, hyor, hysq, -⟩ := from_slice_ok h
  have hxbytes : beToNat (beBytesFixed 32 pk.x) = pk.x :=
    beToNat_beBytesFixed 32 pk.x (by
      have : secpP < 256 ^ 32 := by decide
      omega)
  have hylt : pk.y % 2 = 0 ∨ pk.y % 2 = 1 := by omega
  unfold PublicKey.serialize
  unfold PublicKey.from_slice
  rw [if_neg (by simp [beBytesFixed_length])]
  simp only []
  have hgd : ((if pk.y % 2 = 0 then 2 else 3) :: beBytesFixed 32 pk.x).getD 0 0
      = (if pk.y % 2 = 0 then 2 else 3) := rfl
  have hdrop : ((if pk.y % 2 = 0 then 2 else 3) :: beBytesFixed 32 pk.x).drop 1
      = beBytesFixed 32 pk.x := rfl
  rw [hgd, hdrop]
  rw [if_neg (by split <;> omega)]
  rw [hxbytes]
  rw [if_neg (by omega)]
  -- the parity of the emitted prefix equals the parity of pk.y
  have hparpre : (if pk.y % 2 = 0 then 2 else 3) % 2 = pk.y % 2 := by
    split <;> omega
  set y0 := fsqrt ((pk.x * pk.x % secpP * pk.x + 7) % secpP) with hy0
  have hy0lt : y0 < secpP := fsqrt_lt _
  -- the recomputed y equals pk.y
  have hyeq : (if y0 % 2 = (if pk.y % 2 = 0 then 2 else 3) % 2 then y0
      else (secpP - y0) % secpP) = pk.y := by
    rw [hparpre]
    rcases hyor with hy | hy
    · rw [if_pos (by rw [hy])]
      exact hy.symm
    · by_cases hz : y0 = 0
      · have hpy : pk.y = 0 := by
          rw [hy, hz]
          simp
        rw [hpy, hz]
        rw [if_pos rfl]
      · have hodd : secpP % 2 = 1 := by decide
        have hsub : (secpP - y0) % secpP = secpP - y0 := by
          apply Nat.mod_eq_of_lt
          omega
        have hpar2 : pk.y % 2 ≠ y0 % 2 := by
          rw [hy, hsub]
          omega
        rw [if_neg (by omega), ← hy]
  rw [hyeq]
  rw [if_pos ⟨hysq, hparpre.symm⟩]

/-! ## Claims C3 and C4: the wire codec -/

/-- The repository's `TEST_XPUB` with its final checksum byte changed
from `0xA4` to `0xA5`: its Base58 payload has an invalid checksum. -/
def badChecksumXpub : String :=
  "xpub681vrYy1g8k1xtcNPi2WN9pGiHDejoCvUT4GG2Mbs9rcs98VWvoQXmgT2J1umYQs9p2qp6xdMjJ2AU1rNcCMq9RmtKNhowJKYvVgKwS59xY"

set_option maxRecDepth 1000000 in
/-- C3 is a code bug: `from_base58` never verifies the checksum.  The
input below Base58-decodes to 82 bytes whose last four bytes differ from
`SHA256(SHA256(first 78 bytes))[0..4]`, yet parsing returns a node (the
same node `TEST_XPUB` parses to) instead of an error. -/
theorem c3_checksum_not_verified :
    (∃ b : List Nat, b58Decode badChecksumXpub = some b ∧ b.length = 82 ∧
      b.drop 78 ≠ (sha256 (sha256 (b.take 78))).take 4) ∧
    Xpub.from_base58 badChecksumXpub = .ok testXpub := by
  constructor
  · refine ⟨[      4, 136, 178, 30, 1, 17, 110, 152, 183, 0, 0, 0, 0, 22, 26, 41, 249,
      207, 81, 126, 224, 215, 58, 44, 116, 122, 16, 12, 125, 164, 155, 240,
      166, 107, 62, 206, 119, 151, 189, 71, 32, 97, 186, 238, 133, 3, 154,
      149, 152, 246, 67, 188, 240, 204, 32, 59, 142, 21, 207, 196, 220, 76,
      125, 210, 255, 160, 208, 76, 98, 61, 185, 59, 194, 90, 222, 103, 3,
      206, 58, 176, 24, 165], by rfl, by rfl, by decide⟩
  · rfl

/-- An 82-byte extended-key payload that is fully valid — correct
length, correct checksum, valid public key — but carries the Litecoin
`Ltub` version bytes `0x019DA462` instead of `0x0488B21E`. -/
def versionMismatchXpub : String :=
  "Ltub2UT3KCB3Za42DFtJzC2WE1vVo5YDVaj4bjGF676iEehKbWmJAwJ9MRAtPAXwRwp7k2SRQEMBCkwQGZNyHWHog5DCBTGAUd4N3RG2EVF8s3b"

set_option maxRecDepth 1000000 in
/-- Counterexample to C4: the input below decodes to a valid 82-byte
payload (valid length, checksum and public key), but
`to_base58(from_base58(x))` differs from `x`, because `from_base58`
discards the version bytes and `to_base58` always writes the Bitcoin
`xpub` version `0x0488B21E`. -/
theorem c4_counterexample :
    (∃ b : List Nat, b58Decode versionMismatchXpub = some b ∧
      b.length = 82 ∧
      b.drop 78 = (sha256 (sha256 (b.take 78))).take 4 ∧
      (PublicKey.from_slice ((b.drop 45).take 33)).isOk = true ∧
      b.take 4 ≠ [0x04, 0x88, 0xB2, 0x1E]) ∧
    Xpub.from_base58 versionMismatchXpub = .ok testXpub ∧
    Xpub.to_base58 testXpub ≠ versionMismatchXpub := by
  refine ⟨⟨[      1, 157, 164, 98, 1, 17, 110, 152, 183, 0, 0, 0, 0, 22, 26, 41, 249,
      207, 81, 126, 224, 215, 58, 44, 116, 122, 16, 12, 125, 164, 155, 240,
      166, 107, 62, 206, 119, 151, 189, 71, 32, 97, 186, 238, 133, 3, 154,
      149, 152, 246, 67, 188, 240, 204, 32, 59, 142, 21, 207, 196, 220, 76,
      125, 210, 255, 160, 208, 76, 98, 61, 185, 59, 194, 90, 222, 103, 3,
      206, 122, 77, 183, 214], by rfl, by rfl, by rfl, by rfl, by decide⟩, by rfl, by decide⟩

/-- C4 (amended): the wire-format round trip.  For any string that
parses, re-parsing the re-serialization reproduces the node field for
field; and serialization reproduces the input string character for
character provided the payload carried the Bitcoin `xpub` version bytes
`0x0488B21E` (which `to_base58` hard-codes) and a valid checksum (which
`to_base58` recomputes).  The counterexample above shows the version
restriction is necessary. -/
theorem c4_round_trip (s : String) (b : List Nat) (n : Xpub)
    (hdec : b58Decode s = some b) (hparse : Xpub.from_base58 s = .ok n) :
    Xpub.from_base58 n.to_base58 = .ok n ∧
    (b.take 4 = [0x04, 0x88, 0xB2, 0x1E] →
      b.drop 78 = (sha256 (sha256 (b.take 78))).take 4 →
      n.to_base58 = s) := by
  have hbytes : ByteList b := b58Decode_byteList s b hdec
  unfold Xpub.from_base58 at hparse
  rw [hdec] at hparse
  simp only [] at hparse
  split at hparse
  · exact absurd hparse (by simp)
  rename_i hlen82
  split at hparse
  · exact absurd hparse (by simp)
  rename_i pk hpk
  obtain ⟨rfl⟩ := Except.ok.inj hparse
  have hlen : b.length = 82 := by omega
  -- components of the parsed node
  have h4lt : (4 : Nat) < b.length := by omega
  have hdlt : b.getD 4 0 < 256 := by
    rw [List.getD_eq_getElem _ _ h4lt]
    exact hbytes _ (List.getElem_mem h4lt)
  have hf4len : ((b.drop 5).take 4).length = 4 := by simp [hlen]
  have hf4b : ByteList ((b.drop 5).take 4) := fun x hx =>
    hbytes x (List.mem_of_mem_drop (List.mem_of_mem_take hx))
  have hfplt : beToNat ((b.drop 5).take 4) < 256 ^ 4 := by
    have := beToNat_lt _ hf4b
    rwa [hf4len] at this
  have hc4len : ((b.drop 9).take 4).length = 4 := by simp [hlen]
  have hc4b : ByteList ((b.drop 9).take 4) := fun x hx =>
    hbytes x (List.mem_of_mem_drop (List.mem_of_mem_take hx))
  have hcnlt : beToNat ((b.drop 9).take 4) < 256 ^ 4 := by
    have := beToNat_lt _ hc4b
    rwa [hc4len] at this
  have hcclen : ((b.drop 13).take 32).length = 32 := by simp [hlen]
  have hccb : ByteList ((b.drop 13).take 32) := fun x hx =>
    hbytes x (List.mem_of_mem_drop (List.mem_of_mem_take hx))
  have hserslen : ((b.drop 45).take 33).length = 33 := by simp [hlen]
  have hsersb : ByteList ((b.drop 45).take 33) := fun x hx =>
    hbytes x (List.mem_of_mem_drop (List.mem_of_mem_take hx))
  have hser : pk.serialize = (b.drop 45).take 33 := serialize_from_slice hpk hsersb
  have hserlen : pk.serialize.length = 33 := by rw [hser]; exact hserslen
  have hserb : ByteList pk.serialize := by rw [hser]; exact hsersb
  have hpk2 : PublicKey.from_slice pk.serialize = .ok pk := from_slice_serialize hpk
  have hfpbytes : beBytesFixed 4 (beToNat ((b.drop 5).take 4)) =
      (b.drop 5).take 4 := by
    have := beBytesFixed_beToNat _ hf4b
    rwa [hf4len] at this
  have hcnbytes : beBytesFixed 4 (beToNat ((b.drop 9).take 4)) =
      (b.drop 9).take 4 := by
    have := beBytesFixed_beToNat _ hc4b
    rwa [hc4len] at this
  -- the serialized bytes, in cons-normal form
  have hB : Xpub.to_base58 (Xpub.new (b.getD 4 0) (beToNat ((b.drop 5).take 4))
      (beToNat ((b.drop 9).take 4)) ((b.drop 13).take 32) pk) =
      b58Encode (4 :: 136 :: 178 :: 30 :: b.getD 4 0 % 256 ::
        (beBytesFixed 4 (beToNat ((b.drop 5).take 4)) ++
         (beBytesFixed 4 (beToNat ((b.drop 9).take 4)) ++
          ((b.drop 13).take 32 ++ (pk.serialize ++
           (sha256 (sha256 (4 :: 136 :: 178 :: 30 :: b.getD 4 0 % 256 ::
             (beBytesFixed 4 (beToNat ((b.drop 5).take 4)) ++
              (beBytesFixed 4 (beToNat ((b.drop 9).take 4)) ++
               ((b.drop 13).take 32 ++ pk.serialize)))))).take 4))))) := by
    unfold Xpub.to_base58
    simp only [Xpub.new, List.cons_append, List.nil_append, List.append_assoc]
  -- abbreviate the two normal forms
  set DATA : List Nat := 4 :: 136 :: 178 :: 30 :: b.getD 4 0 % 256 ::
    (beBytesFixed 4 (beToNat ((b.drop 5).take 4)) ++
     (beBytesFixed 4 (beToNat ((b.drop 9).take 4)) ++
      ((b.drop 13).take 32 ++ pk.serialize))) with hDATA
  set CKS : List Nat := (sha256 (sha256 DATA)).take 4 with hCKS
  set LB : List Nat := 4 :: 136 :: 178 :: 30 :: b.getD 4 0 % 256 ::
    (beBytesFixed 4 (beToNat ((b.drop 5).take 4)) ++
     (beBytesFixed 4 (beToNat ((b.drop 9).take 4)) ++
      ((b.drop 13).take 32 ++ (pk.serialize ++ CKS)))) with hLB
  have hCKSlen : CKS.length = 4 := by
    rw [hCKS]
    simp [sha256_length]
  have hCKSb : ByteList CKS := fun x hx =>
    sha256_byteList _ x (List.mem_of_mem_take hx)
  have hLBlen : LB.length = 82 := by
    rw [hLB]
    simp [beBytesFixed_length, hcclen, hserlen, hCKSlen, hlen]
  have hLBb : ByteList LB := by
    rw [hLB]
    intro x hx
    simp only [List.mem_cons, List.mem_append] at hx
    rcases hx with rfl | rfl | rfl | rfl | rfl | hx | hx | hx | hx | hx
    · norm_num
    · norm_num
    · norm_num
    · norm_num
    · exact Nat.mod_lt _ (by norm_num)
    · exact beBytesFixed_byteList 4 _ x hx
    · exact beBytesFixed_byteList 4 _ x hx
    · exact hccb x hx
    · exact hserb x hx
    · exact hCKSb x hx
  -- slices of LB recover the components
  have hs4 : LB.getD 4 0 = b.getD 4 0 % 256 := by rw [hLB]; rfl
  have hs5 : (LB.drop 5).take 4 = beBytesFixed 4 (beToNat ((b.drop 5).take 4)) := by
    rw [hLB]
    show (beBytesFixed 4 (beToNat ((b.drop 5).take 4)) ++ _).take 4 = _
    exact List.take_left' (beBytesFixed_length 4 _)
  have hs9 : (LB.drop 9).take 4 = beBytesFixed 4 (beToNat ((b.drop 9).take 4)) := by
    rw [hLB]
    show ((beBytesFixed 4 (beToNat ((b.drop 5).take 4)) ++ _).drop 4).take 4 = _
    rw [List.drop_left' (beBytesFixed_length 4 _)]
    exact List.take_left' (beBytesFixed_length 4 _)
  have hs13 : (LB.drop 13).take 32 = (b.drop 13).take 32 := by
    rw [hLB]
    show ((beBytesFixed 4 (beToNat ((b.drop 5).take 4)) ++ _).drop 8).take 32 = _
    have h8 : (8 : Nat) = (beBytesFixed 4 (beToNat ((b.drop 5).take 4))).length + 4 := by
      rw [beBytesFixed_length]
    rw [h8, List.drop_append, List.drop_left' (beBytesFixed_length 4 _)]
    exact List.take_left' hcclen
  have hs45 : (LB.drop 45).take 33 = pk.serialize := by
    rw [hLB]
    show ((beBytesFixed 4 (beToNat ((b.drop 5).take 4)) ++ _).drop 40).take 33 = _
    have h40 : (40 : Nat) = (beBytesFixed 4 (beToNat ((b.drop 5).take 4))).length + 36 := by
      rw [beBytesFixed_length]
    rw [h40, List.drop_append]
    have h36 : (36 : Nat) = (beBytesFixed 4 (beToNat ((b.drop 9).take 4))).length + 32 := by
      rw [beBytesFixed_length]
    rw [h36, List.drop_append]
    rw [List.drop_left' hcclen]
    exact List.take_left' hserlen
  constructor
  · -- part 1: parse of the serialization
    rw [hB]
    unfold Xpub.from_base58
    rw [b58Decode_b58Encode LB hLBb (by omega)]
    simp only []
    rw [if_neg (by omega)]
    try simp only []
    rw [hs45, hpk2]
    try simp only []
    rw [hs4, Nat.mod_eq_of_lt hdlt, hs5, hs9,
      beToNat_beBytesFixed 4 _ hfplt, beToNat_beBytesFixed 4 _ hcnlt, hs13]
  · -- part 2: serialization reproduces the input string
    intro hver hcs
    -- decompose b at the field boundaries
    have hdrop4 : b.drop 4 = b.getD 4 0 :: b.drop 5 := by
      rw [List.getD_eq_getElem _ _ h4lt]
      exact List.drop_eq_getElem_cons h4lt
    have hsplit5 : (b.drop 5).take 4 ++ b.drop 9 = b.drop 5 := by
      have h := List.take_append_drop 4 (b.drop 5)
      rwa [List.drop_drop, (show (5 : Nat) + 4 = 9 from rfl)] at h
    have hsplit9 : (b.drop 9).take 4 ++ b.drop 13 = b.drop 9 := by
      have h := List.take_append_drop 4 (b.drop 9)
      rwa [List.drop_drop, (show (9 : Nat) + 4 = 13 from rfl)] at h
    have hsplit13 : (b.drop 13).take 32 ++ b.drop 45 = b.drop 13 := by
      have h := List.take_append_drop 32 (b.drop 13)
      rwa [List.drop_drop, (show (13 : Nat) + 32 = 45 from rfl)] at h
    have hsplit45 : (b.drop 45).take 33 ++ b.drop 78 = b.drop 45 := by
      have h := List.take_append_drop 33 (b.drop 45)
      rwa [List.drop_drop, (show (45 : Nat) + 33 = 78 from rfl)] at h
    have hbdecomp : b = 4 :: 136 :: 178 :: 30 :: b.getD 4 0 ::
        ((b.drop 5).take 4 ++ ((b.drop 9).take 4 ++ ((b.drop 13).take 32 ++
          ((b.drop 45).take 33 ++ b.drop 78)))) := by
      calc b = b.take 4 ++ b.drop 4 := (List.take_append_drop 4 b).symm
        _ = [4, 136, 178, 30] ++ (b.getD 4 0 :: b.drop 5) := by
            rw [hver, hdrop4]
        _ = _ := by
            conv_lhs => rw [← hsplit5, ← hsplit9, ← hsplit13, ← hsplit45]
            rfl
    -- the emitted data block is the first 78 bytes of b
    have htake78 : b.take 78 = 4 :: 136 :: 178 :: 30 :: b.getD 4 0 ::
        ((b.drop 5).take 4 ++ ((b.drop 9).take 4 ++ ((b.drop 13).take 32 ++
          (b.drop 45).take 33))) := by
      conv_lhs => rw [hbdecomp]
      rw [show (78 : Nat) = 77 + 1 from rfl, List.take_succ_cons,
        show (77 : Nat) = 76 + 1 from rfl, List.take_succ_cons,
        show (76 : Nat) = 75 + 1 from rfl, List.take_succ_cons,
        show (75 : Nat) = 74 + 1 from rfl, List.take_succ_cons,
        show (74 : Nat) = 73 + 1 from rfl, List.take_succ_cons]
      have h73 : (73 : Nat) = ((b.drop 5).take 4).length + 69 := by
        rw [hf4len]
      rw [h73, List.take_append]
      have h69 : (69 : Nat) = ((b.drop 9).take 4).length + 65 := by
        rw [hc4len]
      rw [h69, List.take_append]
      have h65 : (65 : Nat) = ((b.drop 13).take 32).length + 33 := by
        rw [hcclen]
      rw [h65, List.take_append]
      rw [List.take_left' hserslen]
    have hDATAb : DATA = b.take 78 := by
      rw [hDATA, htake78, Nat.mod_eq_of_lt hdlt, hfpbytes, hcnbytes, hser]
    have hCKSb78 : CKS = b.drop 78 := by
      rw [hCKS, hDATAb, hcs]
    have hLBeq : LB = b := by
      rw [hLB, Nat.mod_eq_of_lt hdlt, hfpbytes, hcnbytes, hser, hCKSb78]
      exact hbdecomp.symm
    rw [hB, hLBeq]
    exact b58Encode_b58Decode s b hdec (by omega)

/-- The 82 bytes `TEST_XPUB` decodes to. -/
def testXpubBytes : List Nat :=
  [4, 136, 178, 30, 1, 17, 110, 152, 183, 0, 0, 0, 0, 22, 26, 41, 249,
    207, 81, 126, 224, 215, 58, 44, 116, 122, 16, 12, 125, 164, 155, 240,
    166, 107, 62, 206, 119, 151, 189, 71, 32, 97, 186, 238, 133, 3, 154,
    149, 152, 246, 67, 188, 240, 204, 32, 59, 142, 21, 207, 196, 220, 76,
    125, 210, 255, 160, 208, 76, 98, 61, 185, 59, 194, 90, 222, 103, 3,
    206, 58, 176, 24, 164]

set_option maxRecDepth 1000000 in
/-- Witness for C4 (amended) at the repository's test vector. -/
theorem c4_round_trip_witness :
    Xpub.from_base58 (Xpub.to_base58 testXpub) = .ok testXpub ∧
    Xpub.to_base58 testXpub = TEST_XPUB :=
  ⟨(c4_round_trip TEST_XPUB testXpubBytes testXpub (by rfl) (by rfl)).1,
   (c4_round_trip TEST_XPUB testXpubBytes testXpub (by rfl) (by rfl)).2
     (by rfl) (by rfl)⟩
